import Mathlib

/-!
# pysdsl: packed integer vectors and sampled code vectors

A shallow embedding of `pysdsl/__init__.cpp`.  The bound functions (the lambdas
passed to `cls.def`) are translated from the binding source.  The containers they act
on (`sdsl::int_vector`, `sdsl::util::*`, `sdsl::enc_vector`, `sdsl::vlc_vector`, the
coders) belong to the wrapped `sdsl-lite` library; they are modelled from the
specification and every such definition says so.
-/

namespace Pysdsl

/-! ## Failures -/

/-- Failures an operation can signal.  `index_error` is the binding's
`py::index_error(std::to_string(position))`, `cast_error` is what `py::cast` throws
when the Python object does not convert to the requested C++ type; the remaining
constructors are the conditions named by the specification. -/
inductive Error where
  | index_error (msg : String)
  | cast_error
  | OutOfRange
  | InvalidWidth
  | DivisionByZero
  | EmptyVector
  | UnsupportedValue
  deriving DecidableEq, Repr

deriving instance DecidableEq for Except

/-- The decimal rendering `std::to_string(position)` of an unsigned integer. -/
def to_string (position : Nat) : String := Nat.repr position

/-! ## BitStore -/

/-- Modelled from the spec: `WORD_BITS`, the number of bits of one machine word of the
BitStore's word array. -/
def WORD_BITS : Nat := 64

/-- Modelled from the spec: the raw bit-addressable storage (section 3, BitStore) that
backs `sdsl::int_vector`: an owned word array and a logical length in bits. -/
structure BitStore where
  words : List Nat
  bit_length : Nat
  deriving DecidableEq, Repr

namespace BitStore

/-- Modelled from the spec: `capacity_in_bits = words.len() * WORD_BITS`. -/
def capacity_in_bits (s : BitStore) : Nat := s.words.length * WORD_BITS

/-- Modelled from the spec: bit `j` of the store, little-endian bit order within a
word.  Storage that was never reserved reads as zero. -/
def get_bit (s : BitStore) (j : Nat) : Bool :=
  (s.words.getD (j / WORD_BITS) 0).testBit (j % WORD_BITS)

/-- Modelled from the spec: the reallocation a write may trigger; the word array grows
by zero words until it holds `bits` bits. -/
def reserve (s : BitStore) (bits : Nat) : BitStore :=
  { s with words := s.words ++
      List.replicate ((bits + (WORD_BITS - 1)) / WORD_BITS - s.words.length) 0 }

/-- Modelled from the spec: the shift/mask arithmetic of a write (section 9): one word
with bit `o` replaced by `b`. -/
def put_bit (word o : Nat) (b : Bool) : Nat :=
  if b then word ||| (1 <<< o) else word &&& ((2 ^ WORD_BITS - 1) ^^^ (1 <<< o))

/-- Modelled from the spec: sets bit `j` to `b`, leaving every other bit alone. -/
def set_bit (s : BitStore) (j : Nat) (b : Bool) : BitStore :=
  let r := s.reserve (j + 1)
  { r with words :=
      r.words.set (j / WORD_BITS) (put_bit (r.words.getD (j / WORD_BITS) 0) (j % WORD_BITS) b) }

/-- Modelled from the spec: the bit extraction of `read_bits` (section 4.1): the `count`
bits from offset `start` read as a number, the bit at `start` being the least
significant one and the most significant bit extracted last. -/
def read_from (s : BitStore) : Nat → Nat → Nat
  | _, 0 => 0
  | start, k + 1 => Nat.bit (s.get_bit start) (read_from s (start + 1) k)

/-- Modelled from the spec: `read_bits(start, width)` (section 4.1); it fails with
`OutOfRange` when `start + width` exceeds the reserved capacity. -/
def read_bits (s : BitStore) (start width : Nat) : Except Error Nat :=
  if s.capacity_in_bits < start + width then .error .OutOfRange
  else .ok (s.read_from start width)

/-- Modelled from the spec: the bit insertion of `write_bits` (section 4.1): the low
`count` bits of `value` go to offset `start`, least significant first. -/
def write_from (s : BitStore) : Nat → Nat → Nat → BitStore
  | _, _, 0 => s
  | start, value, k + 1 =>
      write_from (s.set_bit start (value.testBit 0)) (start + 1) (value / 2) k

/-- Modelled from the spec: `write_bits(start, width, value)` (section 4.1) writes the
low `width` bits of `value` and disturbs no bit outside `[start, start + width)`. -/
def write_bits (s : BitStore) (start width value : Nat) : BitStore :=
  s.write_from start value width

/-- Modelled from the spec: the zero-fill of a growing `resize_bits` (section 4.1): the
`count` bits from offset `start` are cleared. -/
def zero_range (s : BitStore) (start count : Nat) : BitStore :=
  s.write_from start 0 count

/-- Modelled from the spec: `resize_bits(new_bit_length)` (section 4.1).  Growing
zero-fills the new bits; shrinking only truncates the logical length and leaves the
storage behind it occupied but inert. -/
def resize_bits (s : BitStore) (new_bit_length : Nat) : BitStore :=
  if new_bit_length ≤ s.bit_length then { s with bit_length := new_bit_length }
  else
    { s.zero_range s.bit_length (new_bit_length - s.bit_length) with
      bit_length := new_bit_length }

end BitStore

/-! ## The packed vector -/

/-- The six instantiations `add_class_<int_vector<t_width>, S>` registered by the module. -/
inductive Kind where
  | IntVector
  | BitVector
  | Int8Vector
  | Int16Vector
  | Int32Vector
  | Int64Vector
  deriving DecidableEq, Repr

namespace Kind

/-- The template argument of `int_vector<t_width>`; `0` is the generic vector whose
width is chosen at run time. -/
def t_width : Kind → Nat
  | IntVector => 0
  | BitVector => 1
  | Int8Vector => 8
  | Int16Vector => 16
  | Int32Vector => 32
  | Int64Vector => 64

/-- Modelled from the spec: the element width a freshly constructed `T result(vsize)`
has (section 4.2, `from_sequence`): the fixed width of the narrow variants, 64 for the
generic one. -/
def default_width (k : Kind) : Nat := if k.t_width = 0 then 64 else k.t_width

/-- Conversion of a stored 64-bit value to the binding's template argument `S`
(`uint64_t`, `bool`, `uint8_t`, `uint16_t`, `uint32_t`, `uint64_t`). -/
def to_S : Kind → Nat → Nat
  | IntVector, x => x % 2 ^ 64
  | BitVector, x => if x = 0 then 0 else 1
  | Int8Vector, x => x % 2 ^ 8
  | Int16Vector, x => x % 2 ^ 16
  | Int32Vector, x => x % 2 ^ 32
  | Int64Vector, x => x % 2 ^ 64

/-- Width in bits of `T::value_type`, the unsigned integer type `py::cast` converts a
sequence item to.  The type is declared by the library, not by the binding: `uint8_t`,
`uint16_t`, `uint32_t` for the 8, 16 and 32 bit vectors, `uint64_t` otherwise. -/
def value_bits : Kind → Nat
  | IntVector => 64
  | BitVector => 64
  | Int8Vector => 8
  | Int16Vector => 16
  | Int32Vector => 32
  | Int64Vector => 64

end Kind

/-- Modelled from the spec: the packed vector (section 3, PackedVector) standing for
`sdsl::int_vector<t_width>`: a width in bits per element, an element count and one
owned BitStore; element `i` occupies the `width` bits from offset `i * width`. -/
structure int_vector where
  kind : Kind
  width : Nat
  length : Nat
  store : BitStore
  deriving DecidableEq, Repr

namespace int_vector

/-- Modelled from the spec: `size()`, the element count. -/
def size (self : int_vector) : Nat := self.length

/-- Modelled from the spec: `bit_size() -> length*width`. -/
def bit_size (self : int_vector) : Nat := self.length * self.width

/-- Modelled from the spec: `capacity()`, the reserved bits. -/
def capacity (self : int_vector) : Nat := self.store.capacity_in_bits

/-- Modelled from the spec: the unchecked element read `self[i]`, a `read_bits` at
`offset = i * width`. -/
def read (self : int_vector) (i : Nat) : Except Error Nat :=
  self.store.read_bits (i * self.width) self.width

/-- Modelled from the spec: the unchecked element write `self[i] = value`, a
`write_bits` at `offset = i * width` that keeps the low `width` bits of `value`. -/
def write (self : int_vector) (i value : Nat) : int_vector :=
  { self with store := self.store.write_bits (i * self.width) self.width value }

/-- Modelled from the spec: the value held by the `width` contiguous bits that element `i`
occupies (section 3, PackedVector invariant). -/
def element (self : int_vector) (i : Nat) : Nat :=
  self.store.read_from (i * self.width) self.width

/-- Modelled from the spec: the fill pass of `new` (section 4.2): the slots `i, i+1, ...`
(`count` of them) receive `value`. -/
def fill (self : int_vector) (value : Nat) : Nat → Nat → int_vector
  | _, 0 => self
  | i, k + 1 => fill (self.write i value) value (i + 1) k

/-- Modelled from the spec: the allocation of `new` (section 4.2): the vector of `size`
zero elements of width `w`; exactly `size*w` bits are allocated and none is set. -/
def blank (kind : Kind) (size w : Nat) : int_vector :=
  { kind := kind, width := w, length := size,
    store := BitStore.reserve { words := [], bit_length := size * w } (size * w) }

/-- Modelled from the spec: `new(size, default_value, width)` (section 4.2) allocates
`size*width` bits and fills every slot with `default_value` truncated to `width` bits.
A fixed-width variant always has its own width. -/
def new (kind : Kind) (size default_value width : Nat) : int_vector :=
  (blank kind size (if kind.t_width = 0 then width else kind.t_width)).fill default_value 0 size

/-- Modelled from the spec: `resize(new_length)` (section 4.2) changes the element
count; elements below `min(old, new)` are kept and new elements are zero. -/
def resize (self : int_vector) (new_length : Nat) : int_vector :=
  { self with length := new_length,
              store := BitStore.resize_bits
                { self.store with bit_length := self.length * self.width }
                (new_length * self.width) }

/-- Modelled from the spec: the data-model invariants of section 3: the width lies in
`1..=64`, a fixed-width variant has its own width, `bit_length >= length * width` and
`bit_length <= capacity_in_bits`. -/
structure WF (v : int_vector) : Prop where
  width_pos : 1 ≤ v.width
  width_le : v.width ≤ 64
  fixed : v.kind.t_width ≠ 0 → v.width = v.kind.t_width
  occupied : v.length * v.width ≤ v.store.bit_length
  reserved : v.store.bit_length ≤ v.store.capacity_in_bits

/-- The invariant can be checked on a concrete vector. -/
instance WF.decidable (v : int_vector) : Decidable v.WF :=
  decidable_of_iff
    (1 ≤ v.width ∧ v.width ≤ 64 ∧ (v.kind.t_width ≠ 0 → v.width = v.kind.t_width) ∧
      v.length * v.width ≤ v.store.bit_length ∧ v.store.bit_length ≤ v.store.capacity_in_bits)
    ⟨fun h => ⟨h.1, h.2.1, h.2.2.1, h.2.2.2.1, h.2.2.2.2⟩,
     fun h => ⟨h.width_pos, h.width_le, h.fixed, h.occupied, h.reserved⟩⟩

end int_vector

/-! ## The bound functions of `add_class_` -/

/-- The call `py::cast<typename T::value_type>(item)`: the conversion succeeds exactly when the
Python integer is representable in the unsigned target type and throws otherwise. -/
def py_cast (kind : Kind) (item : Nat) : Except Error Nat :=
  if item < 2 ^ kind.value_bits then .ok item else .error .cast_error

namespace add_class_

/-- The loop `for (i = 0; i < vsize; i++) result[i] = py::cast<value_type>(v[i])` of the
sequence constructor, started at index `i` with the items still to store. -/
def init_loop (kind : Kind) : int_vector → Nat → List Nat → Except Error int_vector
  | result, _, [] => .ok result
  | result, i, item :: rest =>
      match py_cast kind item with
      | .error e => .error e
      | .ok x => init_loop kind (result.write i x) (i + 1) rest

/-- The constructor `py::init([](const py::sequence& v) {...})`, the specification's
`from_sequence`: `T result(vsize)` followed by the element-wise copy. -/
def init (kind : Kind) (v : List Nat) : Except Error int_vector :=
  init_loop kind (int_vector.new kind v.length 0 kind.default_width) 0 v

/-- The lambda bound as `__getitem__`. -/
def __getitem__ (self : int_vector) (position : Nat) : Except Error Nat :=
  if position ≥ self.size then .error (.index_error (to_string position))
  else
    match self.read position with
    | .error e => .error e
    | .ok x => .ok (self.kind.to_S x)

/-- The lambda bound as `__setitem__`; `value` is the argument of type `S`.  The
method mutates `self`, so the result pairs the outcome with the state of `self`
after the call. -/
def __setitem__ (self : int_vector) (position value : Nat) : Except Error Unit × int_vector :=
  if position ≥ self.size then (.error (.index_error (to_string position)), self)
  else (.ok (), self.write position value)

end add_class_

/-! ## Bit scans, modulo and width expansion (`sdsl::util`) -/

namespace BitStore

/-- Modelled from the spec: the forward scan of `next_bit` (section 4.2): walks upward
from `pos` over `fuel` positions and returns the first one whose bit is set, or `stop`
when none of them is. -/
def scan_up (s : BitStore) (stop : Nat) : Nat → Nat → Nat
  | _, 0 => stop
  | pos, k + 1 => if s.get_bit pos then pos else scan_up s stop (pos + 1) k

/-- Modelled from the spec: the backward scan of `prev_bit` (section 4.2): walks downward
from position `top - 1` to `0` and returns the first position whose bit is set, or
`none_found` when none of them is. -/
def scan_down (s : BitStore) (none_found : Nat) : Nat → Nat
  | 0 => none_found
  | k + 1 => if s.get_bit k then k else scan_down s none_found k

end BitStore

/-- Modelled from the spec: `sdsl::util::next_bit(v, idx)` (section 4.2), the smallest
set-bit position `>= idx` over the raw bit pattern, and the sentinel `bit_size()` when
no bit is set in range. -/
def util_next_bit (v : int_vector) (idx : Nat) : Nat :=
  v.store.scan_up v.bit_size idx (v.bit_size - idx)

/-- Modelled from the spec: `sdsl::util::prev_bit(v, idx)` (section 4.2), the largest
set-bit position `<= idx` over the raw bit pattern, and the sentinel `bit_size()` when
no bit is set in range. -/
def util_prev_bit (v : int_vector) (idx : Nat) : Nat :=
  v.store.scan_down v.bit_size (idx + 1)

/-- The lambda bound as `next_bit` by `add_class_`. -/
def add_class_.next_bit (self : int_vector) (idx : Nat) : Except Error Nat :=
  if idx ≥ self.bit_size then .error (.index_error (to_string idx))
  else .ok (util_next_bit self idx)

/-- The lambda bound as `prev_bit` by `add_class_`. -/
def add_class_.prev_bit (self : int_vector) (idx : Nat) : Except Error Nat :=
  if idx ≥ self.bit_size then .error (.index_error (to_string idx))
  else .ok (util_prev_bit self idx)

/-- Modelled from the spec: the element-wise pass of modulo-assign (section 4.2): the
slots `i, i+1, ...` (`fuel` of them) are replaced by their value modulo `m`. -/
def mod_loop (m : Nat) : int_vector → Nat → Nat → Except Error int_vector
  | v, _, 0 => .ok v
  | v, i, k + 1 =>
      match v.read i with
      | .error e => .error e
      | .ok x => mod_loop m (v.write i (x % m)) (i + 1) k

/-- Modelled from the spec: `sdsl::util::mod(v, m)` (section 4.2, modulo-assign): every
element is replaced by `element mod m`, and `m == 0` fails with `DivisionByZero`. -/
def util_mod (v : int_vector) (m : Nat) : Except Error int_vector :=
  if m = 0 then .error .DivisionByZero else mod_loop m v 0 v.size

/-- The lambda bound as `__imod__`: `sdsl::util::mod(self, m); return self;`. -/
def add_class_.__imod__ (self : int_vector) (m : Nat) : Except Error int_vector :=
  match util_mod self m with
  | .error e => .error e
  | .ok v => .ok v

/-- Modelled from the spec: the repacking pass of `expand_width` (section 4.2): the
elements `i, i+1, ...` (`fuel` of them) of the old vector are written into the new
store at the new width. -/
def repack_loop (old : int_vector) (new_width : Nat) : BitStore → Nat → Nat → Except Error BitStore
  | s, _, 0 => .ok s
  | s, i, k + 1 =>
      match old.read i with
      | .error e => .error e
      | .ok x => repack_loop old new_width (s.write_bits (i * new_width) new_width x) (i + 1) k

/-- Modelled from the spec: `sdsl::util::expand_width(v, new_width)` (sections 4.2 and 7).
It fails with `InvalidWidth` when `new_width` is smaller than the width or outside
`1..=64`; otherwise every element is repacked at the larger width into a fresh store. -/
def util_expand_width (v : int_vector) (new_width : Nat) : Except Error int_vector :=
  if new_width < v.width ∨ new_width < 1 ∨ 64 < new_width then .error .InvalidWidth
  else
    match repack_loop v new_width (int_vector.blank v.kind v.length new_width).store 0 v.length with
    | .error e => .error e
    | .ok s => .ok { v with width := new_width, store := s }

/-- The lambda bound as `expand_width` on `IntVector`; the result is the state of `self`
after the call. -/
def expand_width (self : int_vector) (width : Nat) : Except Error int_vector :=
  util_expand_width self width

/-! ## `add_std_algo`: `max`, `min`, `minmax`

The template works on any container `T` through its const iterators.  An iterator is
the index it points at, `deref` is `*it` and `size` is `end() - begin()`. -/

namespace add_std_algo

/-- The loop of `std::max_element`: `largest` moves to `it` when `*largest < *it`. -/
def max_element_loop (deref : Nat → Except Error Nat) : Nat → Nat → Nat → Except Error Nat
  | largest, _, 0 => .ok largest
  | largest, it, k + 1 =>
      match deref largest, deref it with
      | .ok a, .ok b => max_element_loop deref (if a < b then it else largest) (it + 1) k
      | .error e, _ => .error e
      | _, .error e => .error e

/-- The algorithm `std::max_element(first, last)`: the first largest element, `last` on an empty range. -/
def max_element (deref : Nat → Except Error Nat) (first last : Nat) : Except Error Nat :=
  if first = last then .ok last
  else max_element_loop deref first (first + 1) (last - (first + 1))

/-- The loop of `std::min_element`: `smallest` moves to `it` when `*it < *smallest`. -/
def min_element_loop (deref : Nat → Except Error Nat) : Nat → Nat → Nat → Except Error Nat
  | smallest, _, 0 => .ok smallest
  | smallest, it, k + 1 =>
      match deref smallest, deref it with
      | .ok a, .ok b => min_element_loop deref (if b < a then it else smallest) (it + 1) k
      | .error e, _ => .error e
      | _, .error e => .error e

/-- The algorithm `std::min_element(first, last)`: the first smallest element, `last` on an empty range. -/
def min_element (deref : Nat → Except Error Nat) (first last : Nat) : Except Error Nat :=
  if first = last then .ok last
  else min_element_loop deref first (first + 1) (last - (first + 1))

/-- The loop of `std::minmax_element`: the first smallest and the last largest element. -/
def minmax_element_loop (deref : Nat → Except Error Nat) :
    Nat → Nat → Nat → Nat → Except Error (Nat × Nat)
  | smallest, largest, _, 0 => .ok (smallest, largest)
  | smallest, largest, it, k + 1 =>
      match deref smallest, deref largest, deref it with
      | .ok a, .ok b, .ok c =>
          if c < a then minmax_element_loop deref it largest (it + 1) k
          else if c < b then minmax_element_loop deref smallest largest (it + 1) k
          else minmax_element_loop deref smallest it (it + 1) k
      | .error e, _, _ => .error e
      | _, .error e, _ => .error e
      | _, _, .error e => .error e

/-- The algorithm `std::minmax_element(first, last)`; `(first, first)` on an empty range. -/
def minmax_element (deref : Nat → Except Error Nat) (first last : Nat) :
    Except Error (Nat × Nat) :=
  if first = last then .ok (first, first)
  else minmax_element_loop deref first first (first + 1) (last - (first + 1))

/-- The lambda bound as `max`: `*std::max_element(self.begin(), self.end())`. -/
def max (size : Nat) (deref : Nat → Except Error Nat) : Except Error Nat :=
  match max_element deref 0 size with
  | .error e => .error e
  | .ok it => deref it

/-- The lambda bound as `min`: `*std::min_element(self.begin(), self.end())`. -/
def min (size : Nat) (deref : Nat → Except Error Nat) : Except Error Nat :=
  match min_element deref 0 size with
  | .error e => .error e
  | .ok it => deref it

/-- The lambda bound as `minmax`: both iterators of `std::minmax_element` dereferenced. -/
def minmax (size : Nat) (deref : Nat → Except Error Nat) : Except Error (Nat × Nat) :=
  match minmax_element deref 0 size with
  | .error e => .error e
  | .ok (lo, hi) =>
      match deref lo, deref hi with
      | .ok a, .ok b => .ok (a, b)
      | .error e, _ => .error e
      | _, .error e => .error e

end add_std_algo

/-- The lambda `max` on a packed vector. -/
def int_vector.max (self : int_vector) : Except Error Nat :=
  add_std_algo.max self.size self.read

/-- The lambda `min` on a packed vector. -/
def int_vector.min (self : int_vector) : Except Error Nat :=
  add_std_algo.min self.size self.read

/-- The lambda `minmax` on a packed vector. -/
def int_vector.minmax (self : int_vector) : Except Error (Nat × Nat) :=
  add_std_algo.minmax self.size self.read

/-! ## Coders -/

/-- The coders the module registers (`coders` tuple of `PYBIND11_MODULE`). -/
inductive Coder where
  | EliasDelta
  | EliasGamma
  | Fibonacci
  | Comma2
  | Comma4
  deriving DecidableEq, Repr

namespace coder

/-- Modelled from the spec: the pass of `floor(log2(v))` (section 4.3): halves `v` until
it is below 2. -/
def floor_log2_loop : Nat → Nat → Nat
  | 0, _ => 0
  | fuel + 1, v => if 2 ≤ v then floor_log2_loop fuel (v / 2) + 1 else 0

/-- Modelled from the spec: the number `floor(log2(v))` of section 4.3, for `v >= 1`
(and 0 for `v = 0`). -/
def floor_log2 (v : Nat) : Nat := floor_log2_loop v v

/-- Modelled from the spec: a binary representation (section 4.3): the low `width` bits
of `value`, most significant first. -/
def to_bits_msb : Nat → Nat → List Bool
  | 0, _ => []
  | w + 1, value => value.testBit w :: to_bits_msb w value

/-- Modelled from the spec: the reader of a binary representation (section 4.3): reads
`count` bits, most significant first, onto `acc`; yields the number read and the bits
behind it, or nothing when the bits run out. -/
def read_msb : Nat → Nat → List Bool → Option (Nat × List Bool)
  | 0, acc, bits => some (acc, bits)
  | _ + 1, _, [] => none
  | n + 1, acc, b :: bits => read_msb n (2 * acc + b.toNat) bits

namespace elias_gamma

/-- Modelled from the spec: EliasGamma(v) for `v >= 1` (section 4.3) writes
`floor(log2(v))` zero bits and then the binary representation of `v`, which starts
with a 1, in `floor(log2(v)) + 1` bits. -/
def encode (v : Nat) : List Bool :=
  List.replicate (floor_log2 v) false ++ to_bits_msb (floor_log2 v + 1) v

/-- Modelled from the spec: the reader of EliasGamma's unary prefix (section 4.3): counts
the zero bits in front of the first one bit. -/
def skip_zeros : List Bool → Nat → Option (Nat × List Bool)
  | [], _ => none
  | true :: bits, n => some (n, true :: bits)
  | false :: bits, n => skip_zeros bits (n + 1)

/-- Modelled from the spec: the inverse of `encode`; the unary prefix gives the length
of the binary suffix.  Yields the value and the bits behind its code. -/
def decode (bits : List Bool) : Option (Nat × List Bool) :=
  match skip_zeros bits 0 with
  | none => none
  | some (n, rest) => read_msb (n + 1) 0 rest

end elias_gamma

namespace elias_delta

/-- Modelled from the spec: EliasDelta(v) for `v >= 1` (section 4.3) gamma-encodes
`floor(log2(v)) + 1` and appends the bits of `v` below its leading 1. -/
def encode (v : Nat) : List Bool :=
  elias_gamma.encode (floor_log2 v + 1) ++ to_bits_msb (floor_log2 v) v

/-- Modelled from the spec: the inverse of `encode`: the gamma-coded length, then the
bits below the leading 1. -/
def decode (bits : List Bool) : Option (Nat × List Bool) :=
  match elias_gamma.decode bits with
  | none => none
  | some (len, rest) => if len = 0 then none else read_msb (len - 1) 1 rest

end elias_delta

namespace fibonacci

/-- Modelled from the spec: the Zeckendorf representation (section 4.3) by the greedy pass
over the Fibonacci numbers `fib (n+1), ..., fib 3, fib 2`, largest first; the bit of each
number is put in front of `acc`, so the result lists the bit of `fib 2 = 1` first. -/
def greedy : Nat → Nat → List Bool → List Bool
  | 0, _, acc => acc
  | n + 1, remaining, acc =>
      if Nat.fib (n + 2) ≤ remaining then greedy n (remaining - Nat.fib (n + 2)) (true :: acc)
      else greedy n remaining (false :: acc)

/-- Modelled from the spec: the length of the Zeckendorf representation of `v`
(section 4.3): the number of Fibonacci numbers `fib 2, fib 3, ...` that are `<= v`. -/
def terms (v : Nat) : Nat := Nat.findGreatest (fun k => Nat.fib (k + 1) ≤ v) (v + 2)

/-- Modelled from the spec: Fibonacci(v) for `v >= 1` (section 4.3): the Zeckendorf
representation of `v` as a bit pattern, followed by one extra 1 bit after the
representation's trailing 1. -/
def encode (v : Nat) : List Bool := greedy (terms v) v [] ++ [true]

/-- Modelled from the spec: the scan of the Fibonacci decoder (section 4.3): adds
`fib (idx + 2)` for every 1 bit and stops at the second of two consecutive 1 bits. -/
def scan : List Bool → Nat → Nat → Bool → Option (Nat × List Bool)
  | [], _, _, _ => none
  | b :: bits, idx, acc, prev =>
      if prev && b then some (acc, bits)
      else scan bits (idx + 1) (acc + if b then Nat.fib (idx + 2) else 0) b

/-- Modelled from the spec: the inverse of `encode`; the `11` terminator delimits the code. -/
def decode (bits : List Bool) : Option (Nat × List Bool) := scan bits 0 0 false

/-- Auxiliary to the proofs: the number a Zeckendorf bit pattern stands for when its first
bit weighs `fib (idx + 2)`. -/
def weight : Nat → List Bool → Nat
  | _, [] => 0
  | idx, b :: bits => (if b then Nat.fib (idx + 2) else 0) + weight (idx + 1) bits

/-- Auxiliary to the proofs: no two consecutive 1 bits. -/
def sparse (bits : List Bool) : Prop := List.Chain' (fun a b => ¬ (a = true ∧ b = true)) bits

end fibonacci

namespace comma

/-- Modelled from the spec: the bits of one symbol of Comma(k)'s alphabet of size `k`
(section 3). -/
def symbol_bits (k : Nat) : Nat := floor_log2 (k - 1) + 1

/-- Modelled from the spec: the digit group of `v` (section 4.3, Comma): its digits, most
significant first and put in front of `acc`, in the base `b` numeration whose digits
are `1..b`. -/
def digits (b : Nat) : Nat → Nat → List Nat → List Nat
  | 0, _, acc => acc
  | fuel + 1, v, acc =>
      if v = 0 then acc
      else digits b fuel ((v - ((v - 1) % b + 1)) / b) (((v - 1) % b + 1) :: acc)

/-- Modelled from the spec: a digit group as bits (section 4.3, Comma): the symbols written
one after the other, each in `w` bits. -/
def write_symbols (w : Nat) : List Nat → List Bool
  | [] => []
  | d :: ds => to_bits_msb w d ++ write_symbols w ds

/-- Modelled from the spec: Comma(k)(v) for `v >= 0` (sections 3 and 4.3): an alphabet of
`k` symbols, of which `k - 1` are the digits of a base `k - 1` numeration and one, the
symbol `0`, is the reserved comma that terminates the digit group of a value. -/
def encode (k v : Nat) : List Bool :=
  write_symbols (symbol_bits k) (digits (k - 1) v v []) ++ to_bits_msb (symbol_bits k) 0

/-- Modelled from the spec: the scan of the Comma decoder (section 4.3): symbols are read
until the comma. -/
def scan (w b : Nat) : Nat → Nat → List Bool → Option (Nat × List Bool)
  | 0, _, _ => none
  | fuel + 1, acc, bits =>
      match read_msb w 0 bits with
      | none => none
      | some (symbol, rest) =>
          if symbol = 0 then some (acc, rest) else scan w b fuel (acc * b + symbol) rest

/-- Modelled from the spec: the inverse of `encode`. -/
def decode (k : Nat) (bits : List Bool) : Option (Nat × List Bool) :=
  scan (symbol_bits k) (k - 1) bits.length 0 bits

/-- Auxiliary to the proofs: the number a digit string stands for, most significant digit
first, continuing `x`. -/
def value (b : Nat) (x : Nat) (ds : List Nat) : Nat := ds.foldl (fun a d => a * b + d) x

end comma

end coder

namespace Coder

/-- Modelled from the spec: the domain of each coder (section 3): values `>= 1` for
EliasGamma, EliasDelta and Fibonacci, values `>= 0` for Comma. -/
def domain : Coder → Nat → Bool
  | EliasDelta, v => decide (1 ≤ v)
  | EliasGamma, v => decide (1 ≤ v)
  | Fibonacci, v => decide (1 ≤ v)
  | Comma2, _ => true
  | Comma4, _ => true

/-- Modelled from the spec: `encode(value) -> bit pattern`. -/
def encode : Coder → Nat → List Bool
  | EliasDelta, v => coder.elias_delta.encode v
  | EliasGamma, v => coder.elias_gamma.encode v
  | Fibonacci, v => coder.fibonacci.encode v
  | Comma2, v => coder.comma.encode 2 v
  | Comma4, v => coder.comma.encode 4 v

/-- Modelled from the spec: the decoder of each coder (section 4.3): the value at the front
of `bits` and the bits behind its code. -/
def decode_rest : Coder → List Bool → Option (Nat × List Bool)
  | EliasDelta, bits => coder.elias_delta.decode bits
  | EliasGamma, bits => coder.elias_gamma.decode bits
  | Fibonacci, bits => coder.fibonacci.decode bits
  | Comma2, bits => coder.comma.decode 2 bits
  | Comma4, bits => coder.comma.decode 4 bits

/-- Modelled from the spec: `decode(bit cursor) -> (value, bits consumed)`; `bits` are the
bits of the stream from the cursor on. -/
def decode (c : Coder) (bits : List Bool) : Option (Nat × Nat) :=
  match c.decode_rest bits with
  | none => none
  | some (value, rest) => some (value, bits.length - rest.length)

end Coder

/-! ## Sampled code vectors (`enc_vector`, `vlc_vector`) -/

namespace BitStore

/-- Modelled from the spec: `append_bits` (section 4.1): the bits are written behind the
logical end, which moves on by one for each of them. -/
def append_bits (s : BitStore) : List Bool → BitStore
  | [] => s
  | b :: bits => append_bits { s.set_bit s.bit_length b with bit_length := s.bit_length + 1 } bits

/-- Modelled from the spec: what a bit cursor sees (section 3, Coder): the bits of the
stream from `cursor` up to its logical end. -/
def bits_from (s : BitStore) (cursor : Nat) : List Bool :=
  (List.range' cursor (s.bit_length - cursor)).map s.get_bit

end BitStore

/-- Modelled from the spec: one entry of the sample table (section 3): the absolute bit
offset of the sampled element's code and, in delta mode, the running absolute value
reached before that element (0 in direct mode). -/
structure Sample where
  bit_offset : Nat
  running_value : Nat
  deriving DecidableEq, Repr

/-- Modelled from the spec: the SampledCodeVector (section 3) standing for
`sdsl::enc_vector<Coder>` (delta mode) and `sdsl::vlc_vector<Coder>` (direct mode). -/
structure SampledCodeVector where
  coder : Coder
  delta : Bool
  length : Nat
  sample_density : Nat
  stream : BitStore
  samples : List Sample
  deriving DecidableEq, Repr

namespace SampledCodeVector

/-- Modelled from the spec: the forward pass of `build` (section 4.4, steps 1 to 3) from
element `i` on: a sample is
recorded when `i % sample_density == 0`, then the code of the difference to the running
value (delta mode) or of the value itself (direct mode) is appended.  A value the coder
cannot take, a negative difference included, fails with `UnsupportedValue`. -/
def build_loop (c : Coder) (delta : Bool) (sample_density : Nat) :
    BitStore → List Sample → Nat → Nat → List Nat → Except Error (BitStore × List Sample)
  | stream, samples, _, _, [] => .ok (stream, samples)
  | stream, samples, running, i, v :: rest =>
      if delta = true ∧ v < running then .error .UnsupportedValue
      else if c.domain (if delta then v - running else v) = true then
        build_loop c delta sample_density
          (stream.append_bits (c.encode (if delta then v - running else v)))
          (if i % sample_density = 0 then samples ++ [⟨stream.bit_length, running⟩] else samples)
          (if delta then v else 0) (i + 1) rest
      else .error .UnsupportedValue

/-- Modelled from the spec: `build(values, coder, sample_density)` (section 4.4). -/
def build (c : Coder) (delta : Bool) (sample_density : Nat) (values : List Nat) :
    Except Error SampledCodeVector :=
  match build_loop c delta sample_density ⟨[], 0⟩ [] 0 0 values with
  | .error e => .error e
  | .ok (stream, samples) => .ok ⟨c, delta, values.length, sample_density, stream, samples⟩

/-- Modelled from the spec: the decode steps of `get` (section 4.4): `steps` codes are
decoded from `cursor` on, each step advancing the cursor by the bits it consumed; yields
the running sum and the value decoded last. -/
def decode_steps (c : Coder) (stream : BitStore) : Nat → Nat → Nat → Nat → Option (Nat × Nat)
  | 0, _, sum, last => some (sum, last)
  | n + 1, cursor, sum, _ =>
      match c.decode (stream.bits_from cursor) with
      | none => none
      | some (x, consumed) => decode_steps c stream n (cursor + consumed) (sum + x) x

/-- Modelled from the spec: `get(i)` (section 4.4): bounds check, sample
`s = i / sample_density`, cursor at that sample's bit offset, `i - s*sample_density`
forward steps to reach the code of element `i`, which is decoded last; the result is the
value decoded last (direct mode) or the sum accumulated from the sample's running value
(delta mode). -/
def get (self : SampledCodeVector) (i : Nat) : Except Error Nat :=
  if i ≥ self.length then .error (.index_error (to_string i))
  else
    match self.samples[i / self.sample_density]? with
    | none => .error .OutOfRange
    | some s =>
        match decode_steps self.coder self.stream
            (i - i / self.sample_density * self.sample_density + 1)
            s.bit_offset s.running_value 0 with
        | none => .error .UnsupportedValue
        | some (sum, last) => .ok (if self.delta then sum else last)

end SampledCodeVector

/-- The constructor `py::init([](const std::vector<uint64_t>& source) { return T(source); })`
of `add_enc_class`, for `T = enc_vector<Coder>` (`delta = true`) or `vlc_vector<Coder>`
(`delta = false`) with the class's sampling density. -/
def add_enc_class.init (c : Coder) (delta : Bool) (sample_density : Nat) (source : List Nat) :
    Except Error SampledCodeVector :=
  SampledCodeVector.build c delta sample_density source

/-- The lambda bound as `__getitem__` by `add_enc_class`. -/
def add_enc_class.__getitem__ (self : SampledCodeVector) (position : Nat) : Except Error Nat :=
  if position ≥ self.length then .error (.index_error (to_string position))
  else self.get position

/-- Auxiliary to the statements: the numbers handed to the coder in delta mode, the
differences `v[i] - v[i-1]`, the first one taken against `running`. -/
def deltas : Nat → List Nat → List Nat
  | _, [] => []
  | running, v :: rest => (v - running) :: deltas v rest

/-- Auxiliary to the statements: the numbers handed to the coder, the differences in delta
mode, the values themselves in direct mode. -/
def coded_values (delta : Bool) (values : List Nat) : List Nat :=
  if delta then deltas 0 values else values

/-- Auxiliary to the proofs: the coded stream of a list of numbers, their codes one after
the other. -/
def stream_of (c : Coder) : List Nat → List Bool
  | [] => []
  | x :: xs => c.encode x ++ stream_of c xs

/-- Auxiliary to the proofs: the sample table holds `slots` entries when the forward pass of
`build` stands at element `i`: one for every multiple of the density below `i` (for
density 0, one for element 0 only). -/
def sample_slots (sample_density i slots : Nat) : Prop :=
  (0 < sample_density ∧ i ≤ slots * sample_density ∧
    (1 ≤ slots → (slots - 1) * sample_density < i)) ∨
  (sample_density = 0 ∧ slots = if i = 0 then 0 else 1)

/-! ## Concrete vectors used to exercise the operations -/

/-- The vector `IntVector(size=5, default_value=3, bit_width=4)`. -/
def example_int_vector : int_vector := int_vector.new Kind.IntVector 5 3 4

/-- The vector `BitVector([1,0,1,1,0])`. -/
def example_bit_vector : int_vector := ⟨Kind.BitVector, 1, 5, ⟨[13], 5⟩⟩

/-- The vector `BitVector([0,0,0,0,0])`. -/
def example_zero_bits : int_vector := ⟨Kind.BitVector, 1, 5, ⟨[0], 5⟩⟩

/-- The vector `Int8Vector([5,3,9,1,9,1])`. -/
def example_byte_vector : int_vector := ⟨Kind.Int8Vector, 8, 6, ⟨[1138183701253], 48⟩⟩

/-- The vector `Int64Vector(size=1, default_value=7)` after `resize(0)`: no element is
left, the word that held the 7 is still reserved. -/
def example_shrunk_vector : int_vector := (int_vector.new Kind.Int64Vector 1 7 64).resize 0

/-! # Theorems -/
namespace BitStore

theorem getD_append_replicate_zero (l : List Nat) (n j : Nat) :
    (l ++ List.replicate n 0).getD j 0 = l.getD j 0 := by
  simp only [List.getD_eq_getElem?_getD]
  by_cases h : j < l.length
  · rw [List.getElem?_append_left h]
  · rw [List.getElem?_append_right (by omega), List.getElem?_eq_none (by omega : l.length ≤ j)]
    by_cases h2 : j - l.length < n
    · simp [List.getElem?_replicate, h2]
    · simp [List.getElem?_replicate, h2]

theorem get_bit_reserve (s : BitStore) (n j : Nat) : (s.reserve n).get_bit j = s.get_bit j := by
  simp only [get_bit, reserve, getD_append_replicate_zero]

theorem reserve_capacity (s : BitStore) (n : Nat) :
    n ≤ (s.reserve n).capacity_in_bits ∧ s.capacity_in_bits ≤ (s.reserve n).capacity_in_bits := by
  simp only [capacity_in_bits, reserve, WORD_BITS, List.length_append, List.length_replicate]
  omega

theorem testBit_put_bit (word o k : Nat) (b : Bool) (ho : o < WORD_BITS) (hk : k < WORD_BITS) :
    (put_bit word o b).testBit k = if k = o then b else word.testBit k := by
  unfold put_bit
  cases b
  · simp only [Bool.false_eq_true, if_false, Nat.testBit_and, Nat.testBit_xor,
      Nat.testBit_two_pow_sub_one, Nat.one_shiftLeft, Nat.testBit_two_pow]
    by_cases h : k = o
    · subst h; simp [hk]
    · have h' : ¬ o = k := fun e => h e.symm
      simp [h, h', hk]
  · simp only [if_true, Nat.testBit_or, Nat.one_shiftLeft, Nat.testBit_two_pow]
    by_cases h : k = o
    · subst h; simp
    · have h' : ¬ o = k := fun e => h e.symm
      simp [h, h']

end BitStore
namespace BitStore

theorem get_bit_set_bit (s : BitStore) (j j' : Nat) (b : Bool) :
    (s.set_bit j b).get_bit j' = if j' = j then b else s.get_bit j' := by
  have hcap := (reserve_capacity s (j + 1)).1
  have hlen : j / WORD_BITS < (s.reserve (j + 1)).words.length := by
    simp only [capacity_in_bits, WORD_BITS] at hcap ⊢
    omega
  have hres := get_bit_reserve s (j + 1) j'
  simp only [get_bit] at hres
  simp only [set_bit, get_bit, List.getD_eq_getElem?_getD] at hres ⊢
  by_cases hq : j' / WORD_BITS = j / WORD_BITS
  · rw [hq, List.getElem?_set_self hlen]
    simp only [Option.getD_some]
    rw [testBit_put_bit _ _ _ _ (Nat.mod_lt _ (by decide)) (Nat.mod_lt _ (by decide))]
    by_cases hr : j' % WORD_BITS = j % WORD_BITS
    · have : j' = j := by
        have h1 := Nat.div_add_mod j' WORD_BITS
        have h2 := Nat.div_add_mod j WORD_BITS
        rw [hq, hr] at h1
        omega
      simp [this]
    · have hne : j' ≠ j := fun e => hr (by rw [e])
      rw [if_neg hr, if_neg hne, ← hq, hres]
  · have hne : j' ≠ j := fun e => hq (by rw [e])
    rw [List.getElem?_set_ne (fun e => hq e.symm), if_neg hne, hres]

theorem set_bit_bit_length (s : BitStore) (j : Nat) (b : Bool) :
    (s.set_bit j b).bit_length = s.bit_length := rfl

theorem set_bit_capacity (s : BitStore) (j : Nat) (b : Bool) :
    j + 1 ≤ (s.set_bit j b).capacity_in_bits ∧
      s.capacity_in_bits ≤ (s.set_bit j b).capacity_in_bits := by
  have h := reserve_capacity s (j + 1)
  simp only [capacity_in_bits, set_bit, List.length_set] at h ⊢
  exact h

theorem get_bit_write_from (s : BitStore) (start value count j : Nat) :
    (s.write_from start value count).get_bit j =
      if start ≤ j ∧ j < start + count then value.testBit (j - start) else s.get_bit j := by
  induction count generalizing s start value with
  | zero =>
    have h2 : ¬ (start ≤ j ∧ j < start + 0) := by omega
    rw [write_from, if_neg h2]
  | succ k ih =>
    rw [write_from, ih, get_bit_set_bit]
    by_cases h0 : j = start
    · subst h0; simp
    · by_cases h1 : start + 1 ≤ j ∧ j < start + 1 + k
      · have h2 : start ≤ j ∧ j < start + (k + 1) := by omega
        rw [if_pos h1, if_pos h2, Nat.testBit_div_two]
        congr 1; omega
      · have h2 : ¬ (start ≤ j ∧ j < start + (k + 1)) := by omega
        rw [if_neg h1, if_neg h2, if_neg h0]

theorem write_from_bit_length (s : BitStore) (start value count : Nat) :
    (s.write_from start value count).bit_length = s.bit_length := by
  induction count generalizing s start value with
  | zero => rfl
  | succ k ih => rw [write_from, ih, set_bit_bit_length]

theorem write_from_capacity_mono (s : BitStore) (start value count : Nat) :
    s.capacity_in_bits ≤ (s.write_from start value count).capacity_in_bits := by
  induction count generalizing s start value with
  | zero => exact Nat.le_refl _
  | succ k ih =>
    rw [write_from]
    exact Nat.le_trans (set_bit_capacity s start _).2 (ih _ _ _)

theorem write_from_capacity (s : BitStore) (start value count : Nat) (h : 0 < count) :
    start + count ≤ (s.write_from start value count).capacity_in_bits := by
  induction count generalizing s start value with
  | zero => omega
  | succ k ih =>
    rw [write_from]
    cases k with
    | zero => exact (set_bit_capacity s start _).1
    | succ m =>
      have := ih (s.set_bit start (value.testBit 0)) (start + 1) (value / 2) (by omega)
      omega

theorem testBit_read_from (s : BitStore) (start count k : Nat) :
    (s.read_from start count).testBit k = (decide (k < count) && s.get_bit (start + k)) := by
  induction count generalizing start k with
  | zero => simp [read_from]
  | succ n ih =>
    rw [read_from]
    cases k with
    | zero => simp [Nat.testBit_bit_zero]
    | succ m =>
      rw [Nat.testBit_bit_succ, ih]
      simp only [Nat.add_lt_add_iff_right]
      congr 2; omega

theorem read_from_lt (s : BitStore) (start count : Nat) : s.read_from start count < 2 ^ count := by
  apply Nat.lt_pow_two_of_testBit
  intro i hi
  rw [testBit_read_from]
  simp; omega

theorem read_from_congr (s t : BitStore) (start count : Nat)
    (h : ∀ k, k < count → s.get_bit (start + k) = t.get_bit (start + k)) :
    s.read_from start count = t.read_from start count := by
  apply Nat.eq_of_testBit_eq
  intro k
  rw [testBit_read_from, testBit_read_from]
  by_cases hk : k < count
  · rw [h k hk]
  · simp [hk]

theorem read_from_write_from (s : BitStore) (start value count : Nat) :
    (s.write_from start value count).read_from start count = value % 2 ^ count := by
  apply Nat.eq_of_testBit_eq
  intro k
  rw [testBit_read_from, get_bit_write_from, Nat.testBit_mod_two_pow]
  by_cases hk : k < count
  · have : start ≤ start + k ∧ start + k < start + count := by omega
    rw [if_pos this]; simp [hk]
  · simp [hk]

end BitStore
namespace int_vector

theorem write_kind (v : int_vector) (i x : Nat) : (v.write i x).kind = v.kind := rfl
theorem write_width (v : int_vector) (i x : Nat) : (v.write i x).width = v.width := rfl
theorem write_length (v : int_vector) (i x : Nat) : (v.write i x).length = v.length := rfl

theorem write_bit_length (v : int_vector) (i x : Nat) :
    (v.write i x).store.bit_length = v.store.bit_length :=
  BitStore.write_from_bit_length _ _ _ _

theorem write_capacity (v : int_vector) (i x : Nat) :
    v.store.capacity_in_bits ≤ (v.write i x).store.capacity_in_bits :=
  BitStore.write_from_capacity_mono _ _ _ _

theorem write_capacity_slot (v : int_vector) (i x : Nat) :
    i * v.width + v.width ≤ (v.write i x).store.capacity_in_bits := by
  by_cases h : 0 < v.width
  · exact BitStore.write_from_capacity _ _ _ _ h
  · have h0 : v.width = 0 := by omega
    have hz : i * v.width + v.width = 0 := by rw [h0]; rfl
    rw [hz]; exact Nat.zero_le _

theorem element_write_self (v : int_vector) (i x : Nat) :
    (v.write i x).element i = x % 2 ^ v.width :=
  BitStore.read_from_write_from _ _ _ _

theorem slot_disjoint (w i j k : Nat) (hij : i ≠ j) (hk : k < w) :
    ¬ (i * w ≤ j * w + k ∧ j * w + k < i * w + w) := by
  rcases Nat.lt_or_gt_of_ne hij with h | h
  · have h2 : (i + 1) * w ≤ j * w := Nat.mul_le_mul_right w h
    rw [Nat.add_mul, Nat.one_mul] at h2
    omega
  · have h2 : (j + 1) * w ≤ i * w := Nat.mul_le_mul_right w h
    rw [Nat.add_mul, Nat.one_mul] at h2
    omega

theorem element_write_ne (v : int_vector) (i j x : Nat) (hij : i ≠ j) :
    (v.write i x).element j = v.element j := by
  show (v.write i x).store.read_from (j * v.width) v.width = v.store.read_from (j * v.width) v.width
  apply BitStore.read_from_congr
  intro k hk
  show (v.store.write_from (i * v.width) x v.width).get_bit (j * v.width + k) = _
  rw [BitStore.get_bit_write_from, if_neg (slot_disjoint v.width i j k hij hk)]

theorem element_lt (v : int_vector) (i : Nat) : v.element i < 2 ^ v.width :=
  BitStore.read_from_lt _ _ _

theorem read_eq_element (v : int_vector) (i : Nat)
    (h : i * v.width + v.width ≤ v.store.capacity_in_bits) : v.read i = .ok (v.element i) := by
  unfold read BitStore.read_bits
  rw [if_neg (by omega)]; rfl

theorem WF.slot_reserved {v : int_vector} (h : v.WF) {i : Nat} (hi : i < v.length) :
    i * v.width + v.width ≤ v.store.capacity_in_bits := by
  have h1 : (i + 1) * v.width ≤ v.length * v.width := Nat.mul_le_mul_right _ hi
  rw [Nat.add_mul, Nat.one_mul] at h1
  have h2 := h.occupied
  have h3 := h.reserved
  omega

theorem WF.read_ok {v : int_vector} (h : v.WF) {i : Nat} (hi : i < v.length) :
    v.read i = .ok (v.element i) :=
  read_eq_element v i (h.slot_reserved hi)

theorem WF.write_wf {v : int_vector} (h : v.WF) (i x : Nat) : (v.write i x).WF where
  width_pos := h.width_pos
  width_le := h.width_le
  fixed := h.fixed
  occupied := by rw [write_bit_length]; exact h.occupied
  reserved := by
    rw [write_bit_length]
    exact Nat.le_trans h.reserved (write_capacity v i x)

theorem WF.to_S_eq {v : int_vector} (h : v.WF) {x : Nat} (hx : x < 2 ^ v.width) :
    v.kind.to_S x = x := by
  have hp := h.width_pos
  have hl := h.width_le
  have hf := h.fixed
  have h64 : x < 2 ^ 64 := Nat.lt_of_lt_of_le hx (Nat.pow_le_pow_right (by decide) hl)
  cases hk : v.kind <;> rw [hk] at hf <;> simp only [Kind.t_width] at hf <;>
    simp only [Kind.to_S]
  · exact Nat.mod_eq_of_lt h64
  · rw [hf (by decide)] at hx
    have : x < 2 := hx
    split <;> omega
  · rw [hf (by decide)] at hx; exact Nat.mod_eq_of_lt hx
  · rw [hf (by decide)] at hx; exact Nat.mod_eq_of_lt hx
  · rw [hf (by decide)] at hx; exact Nat.mod_eq_of_lt hx
  · exact Nat.mod_eq_of_lt h64

end int_vector

theorem getitem_of_lt {v : int_vector} (h : v.WF) {i : Nat} (hi : i < v.size) :
    add_class_.__getitem__ v i = .ok (v.element i) := by
  unfold add_class_.__getitem__
  rw [if_neg (by omega), h.read_ok hi]
  show Except.ok _ = _
  rw [h.to_S_eq (v.element_lt i)]

theorem getitem_of_ge (v : int_vector) {i : Nat} (hi : v.size ≤ i) :
    add_class_.__getitem__ v i = .error (.index_error (to_string i)) := by
  unfold add_class_.__getitem__
  rw [if_pos hi]

namespace int_vector

/-- What `fill` leaves behind: the header is untouched, the slots `i .. i+count-1` hold the
truncated value and every other slot is as before. -/
theorem fill_spec (v : int_vector) (value i count : Nat) :
    (v.fill value i count).kind = v.kind ∧ (v.fill value i count).width = v.width ∧
    (v.fill value i count).length = v.length ∧
    (v.fill value i count).store.bit_length = v.store.bit_length ∧
    v.store.capacity_in_bits ≤ (v.fill value i count).store.capacity_in_bits ∧
    ∀ j, (v.fill value i count).element j =
      if i ≤ j ∧ j < i + count then value % 2 ^ v.width else v.element j := by
  induction count generalizing v i with
  | zero =>
    refine ⟨rfl, rfl, rfl, rfl, Nat.le_refl _, fun j => ?_⟩
    rw [if_neg (by omega)]; rfl
  | succ k ih =>
    obtain ⟨h1, h2, h3, h4, h5, h6⟩ := ih (v.write i value) (i + 1)
    refine ⟨h1, h2, h3, ?_, ?_, fun j => ?_⟩
    · rw [fill, h4, write_bit_length]
    · rw [fill]; exact Nat.le_trans (write_capacity v i value) h5
    · rw [fill, h6, write_width]
      by_cases hj : j = i
      · subst hj
        rw [if_neg (by omega), if_pos (by omega), element_write_self]
      · by_cases hr : i + 1 ≤ j ∧ j < i + 1 + k
        · rw [if_pos hr, if_pos (by omega)]
        · rw [if_neg hr, if_neg (by omega), element_write_ne v i j value (fun e => hj e.symm)]

theorem new_width (kind : Kind) (size d width : Nat) :
    (new kind size d width).width = if kind.t_width = 0 then width else kind.t_width :=
  (fill_spec _ _ _ _).2.1

theorem new_kind (kind : Kind) (size d width : Nat) : (new kind size d width).kind = kind :=
  (fill_spec _ _ _ _).1

theorem new_length (kind : Kind) (size d width : Nat) : (new kind size d width).length = size :=
  (fill_spec _ _ _ _).2.2.1

theorem new_element (kind : Kind) (size d width j : Nat) (hj : j < size) :
    (new kind size d width).element j = d % 2 ^ (new kind size d width).width := by
  have h := (fill_spec (blank kind size (if kind.t_width = 0 then width else kind.t_width))
    d 0 size).2.2.2.2.2 j
  rw [if_pos (show 0 ≤ j ∧ j < 0 + size by omega)] at h
  rw [new_width]
  exact h

theorem new_WF (kind : Kind) (size d width : Nat)
    (hw : kind.t_width = 0 → 1 ≤ width ∧ width ≤ 64) : (new kind size d width).WF := by
  obtain ⟨-, -, -, h4, h5, -⟩ :=
    fill_spec (blank kind size (if kind.t_width = 0 then width else kind.t_width)) d 0 size
  have hres := (BitStore.reserve_capacity
    { words := [], bit_length := size * (if kind.t_width = 0 then width else kind.t_width) }
    (size * (if kind.t_width = 0 then width else kind.t_width))).1
  have hrange : 1 ≤ (if kind.t_width = 0 then width else kind.t_width) ∧
      (if kind.t_width = 0 then width else kind.t_width) ≤ 64 := by
    by_cases h0 : kind.t_width = 0
    · rw [if_pos h0]; exact hw h0
    · rw [if_neg h0]; cases kind <;> simp [Kind.t_width] at h0 ⊢
  refine ⟨?_, ?_, ?_, ?_, ?_⟩
  · rw [new_width]; exact hrange.1
  · rw [new_width]; exact hrange.2
  · intro h0
    rw [new_kind] at h0
    rw [new_width, new_kind, if_neg h0]
  · rw [new_length, new_width]
    exact Nat.le_of_eq h4.symm
  · exact Nat.le_trans (Nat.le_trans (Nat.le_of_eq h4) hres) h5

theorem default_width_range (kind : Kind) : 1 ≤ kind.default_width ∧ kind.default_width ≤ 64 := by
  cases kind <;> simp [Kind.default_width, Kind.t_width]

theorem default_width_le_value_bits (kind : Kind) : kind.default_width ≤ kind.value_bits := by
  cases kind <;> simp [Kind.default_width, Kind.t_width, Kind.value_bits]

theorem new_default_width (kind : Kind) (size d : Nat) :
    (new kind size d kind.default_width).width = kind.default_width := by
  rw [new_width]
  unfold Kind.default_width
  split <;> rfl

end int_vector

/-- The copy loop of the sequence constructor succeeds when every item converts; it stores
item `k` truncated to the width in slot `i + k` and changes no other slot. -/
theorem from_sequence_loop_ok (kind : Kind) (items : List Nat) (result : int_vector) (i : Nat)
    (hfit : ∀ x ∈ items, x < 2 ^ kind.value_bits) :
    ∃ r, add_class_.init_loop kind result i items = .ok r ∧
      r.kind = result.kind ∧ r.width = result.width ∧ r.length = result.length ∧
      r.store.bit_length = result.store.bit_length ∧
      result.store.capacity_in_bits ≤ r.store.capacity_in_bits ∧
      (∀ k, (hk : k < items.length) → r.element (i + k) = items[k] % 2 ^ result.width) ∧
      (∀ j, (j < i ∨ i + items.length ≤ j) → r.element j = result.element j) := by
  induction items generalizing result i with
  | nil =>
    exact ⟨result, rfl, rfl, rfl, rfl, rfl, Nat.le_refl _,
      fun k hk => absurd hk (Nat.not_lt_zero k), fun _ _ => rfl⟩
  | cons x rest ih =>
    have hx : x < 2 ^ kind.value_bits := hfit x (List.mem_cons_self _ _)
    obtain ⟨r, hr, h1, h2, h3, h4, h5, h6, h7⟩ :=
      ih (result.write i x) (i + 1) (fun y hy => hfit y (List.mem_cons_of_mem _ hy))
    refine ⟨r, ?_, h1, h2, h3, ?_, ?_, ?_, ?_⟩
    · rw [add_class_.init_loop, py_cast, if_pos hx]; exact hr
    · rw [h4, int_vector.write_bit_length]
    · exact Nat.le_trans (int_vector.write_capacity result i x) h5
    · intro k hk
      cases k with
      | zero =>
        rw [h7 (i + 0) (Or.inl (by omega))]
        exact int_vector.element_write_self result i x
      | succ m =>
        have hm : m < rest.length := by
          simp only [List.length_cons] at hk; omega
        have := h6 m hm
        rw [show i + (m + 1) = i + 1 + m by omega, this]
        rfl
    · intro j hj
      have hlen : (x :: rest).length = rest.length + 1 := rfl
      rw [h7 j (by omega), int_vector.element_write_ne result i j x (by omega)]

/-- A sequence holding an item that does not convert is rejected by the constructor. -/
theorem from_sequence_loop_reject (kind : Kind) (items : List Nat) (result : int_vector) (i : Nat)
    (hbad : ∃ x ∈ items, 2 ^ kind.value_bits ≤ x) :
    add_class_.init_loop kind result i items = .error .cast_error := by
  induction items generalizing result i with
  | nil => obtain ⟨x, hx, -⟩ := hbad; cases hx
  | cons y rest ih =>
    by_cases hy : y < 2 ^ kind.value_bits
    · rw [add_class_.init_loop, py_cast, if_pos hy]
      apply ih
      obtain ⟨x, hx, hle⟩ := hbad
      rcases List.mem_cons.mp hx with rfl | hmem
      · omega
      · exact ⟨x, hmem, hle⟩
    · rw [add_class_.init_loop, py_cast, if_neg hy]

/-! ## Element access (`__getitem__`, `__setitem__`) -/

/-- C1: on a packed vector `__getitem__` fails with the index error carrying `position`
exactly when `position >= length` (and fails in no other way), and for `position < length`
it returns the element stored at `position`. -/
theorem getitem_bounds (self : int_vector) (position : Nat) (hwf : self.WF) :
    (add_class_.__getitem__ self position = .error (.index_error (to_string position)) ↔
      self.length ≤ position) ∧
    ((∃ e, add_class_.__getitem__ self position = .error e) ↔ self.length ≤ position) ∧
    (position < self.length → add_class_.__getitem__ self position = .ok (self.element position)) := by
  by_cases h : position < self.length
  · have hok := getitem_of_lt hwf (show position < self.size from h)
    refine ⟨⟨fun he => ?_, fun hge => absurd h (Nat.not_lt.mpr hge)⟩,
      ⟨fun he => ?_, fun hge => absurd h (Nat.not_lt.mpr hge)⟩, fun _ => hok⟩
    · rw [hok] at he; cases he
    · obtain ⟨e, he⟩ := he
      rw [hok] at he; cases he
  · have hge : self.length ≤ position := Nat.not_lt.mp h
    have herr := getitem_of_ge self (show self.size ≤ position from hge)
    exact ⟨⟨fun _ => hge, fun _ => herr⟩, ⟨fun _ => hge, fun _ => ⟨_, herr⟩⟩,
      fun hlt => absurd hlt h⟩

/-- Witness for C1 at `IntVector(size=5, default_value=3, bit_width=4)` and position 2. -/
theorem getitem_bounds_witness :
    example_int_vector.WF ∧
    ((add_class_.__getitem__ example_int_vector 2 = .error (.index_error (to_string 2)) ↔
      example_int_vector.length ≤ 2) ∧
    ((∃ e, add_class_.__getitem__ example_int_vector 2 = .error e) ↔
      example_int_vector.length ≤ 2) ∧
    (2 < example_int_vector.length →
      add_class_.__getitem__ example_int_vector 2 =
        .ok (example_int_vector.element 2))) :=
  ⟨int_vector.new_WF _ _ _ _ (fun _ => ⟨by decide, by decide⟩),
   getitem_bounds _ 2 (int_vector.new_WF _ _ _ _ (fun _ => ⟨by decide, by decide⟩))⟩

/-- C2: on a packed vector of width `w` in `1..=64`, for `position < length` and
`value < 2^w`, `__setitem__` succeeds and a following `__getitem__` at the same
position returns `value`. -/
theorem setitem_getitem (self : int_vector) (position value : Nat) (hwf : self.WF)
    (hpos : position < self.length) (hval : value < 2 ^ self.width) :
    (add_class_.__setitem__ self position value).1 = .ok () ∧
    add_class_.__getitem__ (add_class_.__setitem__ self position value).2 position = .ok value := by
  have hs : add_class_.__setitem__ self position value = (.ok (), self.write position value) := by
    unfold add_class_.__setitem__
    rw [if_neg (show ¬ position ≥ self.size from Nat.not_le.mpr hpos)]
  rw [hs]
  refine ⟨rfl, ?_⟩
  show add_class_.__getitem__ (self.write position value) position = .ok value
  rw [getitem_of_lt (hwf.write_wf position value) (show position < (self.write position value).size from hpos),
    int_vector.element_write_self, Nat.mod_eq_of_lt hval]

/-- Witness for C2: storing 9 at position 3 of `IntVector(size=5, default_value=3, bit_width=4)`. -/
theorem setitem_getitem_witness :
    example_int_vector.WF ∧
    3 < example_int_vector.length ∧
    9 < 2 ^ example_int_vector.width ∧
    (add_class_.__setitem__ example_int_vector 3 9).1 = .ok () ∧
    add_class_.__getitem__ (add_class_.__setitem__ example_int_vector 3 9).2 3 = .ok 9 :=
  ⟨int_vector.new_WF _ _ _ _ (fun _ => ⟨by decide, by decide⟩), by decide, by decide,
   setitem_getitem _ 3 9 (int_vector.new_WF _ _ _ _ (fun _ => ⟨by decide, by decide⟩))
     (by decide) (by decide)⟩

/-- C4: for `position >= length` and any value, `__setitem__` fails with the index error
carrying `position` and leaves the vector as it was: same length, same width, same
elements, in fact the very same state. -/
theorem setitem_out_of_range (self : int_vector) (position value : Nat)
    (h : self.length ≤ position) :
    (add_class_.__setitem__ self position value).1 = .error (.index_error (to_string position)) ∧
    (add_class_.__setitem__ self position value).2 = self ∧
    (add_class_.__setitem__ self position value).2.length = self.length ∧
    (add_class_.__setitem__ self position value).2.width = self.width ∧
    ∀ i, (add_class_.__setitem__ self position value).2.element i = self.element i := by
  have hs : add_class_.__setitem__ self position value = (.error (.index_error (to_string position)), self) := by
    unfold add_class_.__setitem__
    rw [if_pos (show position ≥ self.size from h)]
  rw [hs]
  exact ⟨rfl, rfl, rfl, rfl, fun _ => rfl⟩

/-- Witness for C4: writing at position 5 of a vector of five elements. -/
theorem setitem_out_of_range_witness :
    example_int_vector.length ≤ 5 ∧
    (add_class_.__setitem__ example_int_vector 5 1).1 =
      .error (.index_error (to_string 5)) ∧
    (add_class_.__setitem__ example_int_vector 5 1).2 = example_int_vector ∧
    (add_class_.__setitem__ example_int_vector 5 1).2.length =
      example_int_vector.length ∧
    (add_class_.__setitem__ example_int_vector 5 1).2.width =
      example_int_vector.width ∧
    ∀ i, (add_class_.__setitem__ example_int_vector 5 1).2.element i =
      example_int_vector.element i :=
  ⟨by decide, setitem_out_of_range _ 5 1 (by decide)⟩

/-! ## Construction from a sequence -/

/-- The sequence constructor on a sequence whose items all convert. -/
theorem from_sequence_ok (kind : Kind) (values : List Nat)
    (hfit : ∀ x ∈ values, x < 2 ^ kind.value_bits) :
    ∃ r, add_class_.init kind values = .ok r ∧ r.WF ∧ r.kind = kind ∧
      r.length = values.length ∧ r.width = kind.default_width ∧
      ∀ i, (hi : i < values.length) → r.element i = values[i] % 2 ^ kind.default_width := by
  have hwf0 : (int_vector.new kind values.length 0 kind.default_width).WF :=
    int_vector.new_WF _ _ _ _ (fun _ => int_vector.default_width_range kind)
  obtain ⟨r, hr, h1, h2, h3, h4, h5, h6, -⟩ :=
    from_sequence_loop_ok kind values (int_vector.new kind values.length 0 kind.default_width) 0 hfit
  rw [int_vector.new_default_width] at h2 h6
  rw [int_vector.new_length] at h3
  rw [int_vector.new_kind] at h1
  refine ⟨r, hr, ⟨?_, ?_, ?_, ?_, ?_⟩, h1, h3, h2, fun i hi => ?_⟩
  · rw [h2]; exact (int_vector.default_width_range kind).1
  · rw [h2]; exact (int_vector.default_width_range kind).2
  · intro h0
    rw [h1] at h0
    rw [h1, h2, Kind.default_width, if_neg h0]
  · rw [h3, h2, h4]
    have := hwf0.occupied
    rw [int_vector.new_length, int_vector.new_default_width] at this
    exact this
  · rw [h4]; exact Nat.le_trans hwf0.reserved h5
  · have := h6 i hi
    rw [Nat.zero_add] at this
    exact this

/-- C7 (as amended): when every item is representable in the variant's value type, the
sequence constructor yields a vector of the sequence's length, of the element width (1, 8,
16, 32 or 64 bits, 64 for the generic vector), whose element `i` is `values[i]` truncated
to the low `width` bits: an item that converts but does not fit the width is truncated,
not rejected.  A sequence holding an item the value type cannot represent is rejected
with a cast error. -/
theorem from_sequence_truncates (kind : Kind) (values : List Nat)
    (hconv : ∀ x ∈ values, x < 2 ^ kind.value_bits) :
    (∃ r, add_class_.init kind values = .ok r ∧ r.WF ∧ r.length = values.length ∧
      r.width = kind.default_width ∧
      ∀ i, (hi : i < values.length) →
        r.element i = values[i] % 2 ^ kind.default_width ∧
        add_class_.__getitem__ r i = .ok (values[i] % 2 ^ kind.default_width)) ∧
    (∀ bad, 2 ^ kind.value_bits ≤ bad → ∀ front back,
      add_class_.init kind (front ++ bad :: back) = .error .cast_error) := by
  constructor
  · obtain ⟨r, hr, hwf, -, hlen, hw, hel⟩ := from_sequence_ok kind values hconv
    refine ⟨r, hr, hwf, hlen, hw, fun i hi => ⟨hel i hi, ?_⟩⟩
    rw [getitem_of_lt hwf (show i < r.size by rw [int_vector.size, hlen]; exact hi), hel i hi]
  · intro bad hbad front back
    exact from_sequence_loop_reject kind _ _ 0 ⟨bad, by simp, hbad⟩

/-- Witness for C7 (as amended): `BitVector([2,3,4,5])` is built and reads back `[0,1,0,1]`,
the low bit of every item. -/
theorem from_sequence_truncates_witness :
    (∀ x ∈ [2, 3, 4, 5], x < 2 ^ Kind.BitVector.value_bits) ∧
    (∃ r, add_class_.init Kind.BitVector [2, 3, 4, 5] = .ok r ∧
      add_class_.__getitem__ r 0 = .ok 0 ∧ add_class_.__getitem__ r 1 = .ok 1 ∧
      add_class_.__getitem__ r 2 = .ok 0 ∧ add_class_.__getitem__ r 3 = .ok 1) ∧
    ((∃ r, add_class_.init Kind.BitVector [2, 3, 4, 5] = .ok r ∧ r.WF ∧
      r.length = [2, 3, 4, 5].length ∧ r.width = Kind.BitVector.default_width ∧
      ∀ i, (hi : i < [2, 3, 4, 5].length) →
        r.element i = [2, 3, 4, 5][i] % 2 ^ Kind.BitVector.default_width ∧
        add_class_.__getitem__ r i = .ok ([2, 3, 4, 5][i] % 2 ^ Kind.BitVector.default_width)) ∧
    (∀ bad, 2 ^ Kind.BitVector.value_bits ≤ bad → ∀ front back,
      add_class_.init Kind.BitVector (front ++ bad :: back) = .error .cast_error)) :=
  ⟨by decide, ⟨⟨Kind.BitVector, 1, 4, ⟨[10], 4⟩⟩, by decide, by decide, by decide, by decide,
    by decide⟩,
   from_sequence_truncates Kind.BitVector [2, 3, 4, 5] (by decide)⟩

/-- C7, the claim as stated fails: `IntVector([2^64])` and `Int8Vector([300])` are rejected
by the conversion to the value type, no vector holding the truncated item is built. -/
theorem from_sequence_rejects_unrepresentable :
    add_class_.init Kind.IntVector [2 ^ 64] = .error .cast_error ∧
    add_class_.init Kind.Int8Vector [300] = .error .cast_error ∧
    ¬ ∃ r, add_class_.init Kind.IntVector [2 ^ 64] = .ok r ∧ r.length = 1 ∧
      add_class_.__getitem__ r 0 = .ok (2 ^ 64 % 2 ^ 64) := by
  refine ⟨by decide, by decide, ?_⟩
  rintro ⟨r, hr, -⟩
  have h : add_class_.init Kind.IntVector [2 ^ 64] = .error .cast_error := by decide
  rw [h] at hr
  cases hr

/-! ## Bit scans -/

namespace BitStore

/-- The upward scan returns the first set position among `pos .. pos+fuel-1`, or `stop`. -/
theorem scan_up_spec (s : BitStore) (stop pos fuel : Nat) :
    (s.scan_up stop pos fuel = stop ∨
      (pos ≤ s.scan_up stop pos fuel ∧ s.scan_up stop pos fuel < pos + fuel ∧
        s.get_bit (s.scan_up stop pos fuel) = true)) ∧
    (∀ q, pos ≤ q → q < pos + fuel → s.get_bit q = true →
      s.scan_up stop pos fuel ≤ q ∧ s.get_bit (s.scan_up stop pos fuel) = true) := by
  induction fuel generalizing pos with
  | zero => exact ⟨Or.inl rfl, fun q h1 h2 _ => absurd h2 (by omega)⟩
  | succ k ih =>
    rw [scan_up]
    by_cases hb : s.get_bit pos = true
    · rw [if_pos hb]
      exact ⟨Or.inr ⟨Nat.le_refl _, by omega, hb⟩, fun q h1 _ _ => ⟨h1, hb⟩⟩
    · rw [if_neg hb]
      obtain ⟨h1, h2⟩ := ih (pos + 1)
      refine ⟨?_, fun q hq1 hq2 hq3 => ?_⟩
      · rcases h1 with h | ⟨ha, hb', hc⟩
        · exact Or.inl h
        · exact Or.inr ⟨by omega, by omega, hc⟩
      · have hne : q ≠ pos := fun e => hb (e ▸ hq3)
        exact h2 q (by omega) (by omega) hq3

/-- The downward scan returns the last set position below `top`, or `none_found`. -/
theorem scan_down_spec (s : BitStore) (none_found top : Nat) :
    (s.scan_down none_found top = none_found ∨
      (s.scan_down none_found top < top ∧ s.get_bit (s.scan_down none_found top) = true)) ∧
    (∀ q, q < top → s.get_bit q = true →
      q ≤ s.scan_down none_found top ∧ s.scan_down none_found top < top ∧
      s.get_bit (s.scan_down none_found top) = true) := by
  induction top with
  | zero => exact ⟨Or.inl rfl, fun q h _ => absurd h (Nat.not_lt_zero q)⟩
  | succ k ih =>
    rw [scan_down]
    by_cases hb : s.get_bit k = true
    · rw [if_pos hb]
      exact ⟨Or.inr ⟨by omega, hb⟩, fun q h1 _ => ⟨by omega, by omega, hb⟩⟩
    · rw [if_neg hb]
      obtain ⟨h1, h2⟩ := ih
      refine ⟨?_, fun q hq1 hq3 => ?_⟩
      · rcases h1 with h | ⟨ha, hc⟩
        · exact Or.inl h
        · exact Or.inr ⟨by omega, hc⟩
      · have hne : q ≠ k := fun e => hb (e ▸ hq3)
        obtain ⟨a, b, c⟩ := h2 q (by omega) hq3
        exact ⟨a, by omega, c⟩

end BitStore

/-- C5: `next_bit` and `prev_bit` fail, with the index error carrying `idx`, exactly when
`idx >= bit_size()`; both fail for every `idx` on an empty vector and neither fails for
an `idx < bit_size()`. -/
theorem next_prev_bit_bounds (self : int_vector) (idx : Nat) :
    ((∃ e, add_class_.next_bit self idx = .error e) ↔ self.bit_size ≤ idx) ∧
    ((∃ e, add_class_.prev_bit self idx = .error e) ↔ self.bit_size ≤ idx) ∧
    (self.bit_size ≤ idx →
      add_class_.next_bit self idx = .error (.index_error (to_string idx)) ∧
      add_class_.prev_bit self idx = .error (.index_error (to_string idx))) ∧
    (self.length = 0 →
      add_class_.next_bit self idx = .error (.index_error (to_string idx)) ∧
      add_class_.prev_bit self idx = .error (.index_error (to_string idx))) ∧
    (idx < self.bit_size →
      add_class_.next_bit self idx = .ok (util_next_bit self idx) ∧
      add_class_.prev_bit self idx = .ok (util_prev_bit self idx)) := by
  have hge : self.bit_size ≤ idx →
      add_class_.next_bit self idx = .error (.index_error (to_string idx)) ∧
      add_class_.prev_bit self idx = .error (.index_error (to_string idx)) := by
    intro h
    unfold add_class_.next_bit add_class_.prev_bit
    rw [if_pos (show idx ≥ self.bit_size from h), if_pos (show idx ≥ self.bit_size from h)]
    exact ⟨rfl, rfl⟩
  have hlt : idx < self.bit_size →
      add_class_.next_bit self idx = .ok (util_next_bit self idx) ∧
      add_class_.prev_bit self idx = .ok (util_prev_bit self idx) := by
    intro h
    unfold add_class_.next_bit add_class_.prev_bit
    rw [if_neg (show ¬ idx ≥ self.bit_size from Nat.not_le.mpr h),
      if_neg (show ¬ idx ≥ self.bit_size from Nat.not_le.mpr h)]
    exact ⟨rfl, rfl⟩
  refine ⟨⟨fun ⟨e, he⟩ => ?_, fun h => ⟨_, (hge h).1⟩⟩,
    ⟨fun ⟨e, he⟩ => ?_, fun h => ⟨_, (hge h).2⟩⟩, hge, fun h0 => hge ?_, hlt⟩
  · by_cases h : idx < self.bit_size
    · rw [(hlt h).1] at he; cases he
    · exact Nat.not_lt.mp h
  · by_cases h : idx < self.bit_size
    · rw [(hlt h).2] at he; cases he
    · exact Nat.not_lt.mp h
  · rw [int_vector.bit_size, h0, Nat.zero_mul]; exact Nat.zero_le _

/-- C6: for `idx < bit_size()`, `next_bit(idx)` returns a position `p` with `idx <= p`;
either `p < bit_size()`, the raw bit at `p` is set and no raw bit in `idx .. p-1` is, or
no raw bit in `idx .. bit_size()-1` is set and `p` is the sentinel `bit_size()`. -/
theorem next_bit_smallest (self : int_vector) (idx : Nat) (h : idx < self.bit_size) :
    ∃ p, add_class_.next_bit self idx = .ok p ∧ idx ≤ p ∧ p ≤ self.bit_size ∧
      (p < self.bit_size → self.store.get_bit p = true) ∧
      (∀ q, idx ≤ q → q < p → self.store.get_bit q = false) ∧
      ((∀ q, idx ≤ q → q < self.bit_size → self.store.get_bit q = false) →
        p = self.bit_size) ∧
      (∀ q, idx ≤ q → q < self.bit_size → self.store.get_bit q = true → p ≤ q) := by
  have hok : add_class_.next_bit self idx = .ok (util_next_bit self idx) := by
    unfold add_class_.next_bit
    rw [if_neg (show ¬ idx ≥ self.bit_size from Nat.not_le.mpr h)]
  obtain ⟨h1, h2⟩ := BitStore.scan_up_spec self.store self.bit_size idx (self.bit_size - idx)
  have hsum : idx + (self.bit_size - idx) = self.bit_size := by omega
  rw [hsum] at h1 h2
  have hmin : ∀ q, idx ≤ q → q < util_next_bit self idx → self.store.get_bit q = false := by
    intro q hq1 hq2
    cases hb : self.store.get_bit q with
    | false => rfl
    | true =>
      have hq3 : q < self.bit_size := by
        rcases h1 with h' | ⟨_, h', _⟩
        · exact h' ▸ hq2
        · exact Nat.lt_trans hq2 h'
      have := (h2 q hq1 hq3 hb).1
      exact absurd hq2 (Nat.not_lt.mpr this)
  refine ⟨util_next_bit self idx, hok, ?_, ?_, ?_, hmin, ?_, ?_⟩
  · rcases h1 with h' | ⟨h', _, _⟩
    · show idx ≤ self.store.scan_up self.bit_size idx (self.bit_size - idx)
      rw [h']; exact Nat.le_of_lt h
    · exact h'
  · rcases h1 with h' | ⟨_, h', _⟩
    · exact Nat.le_of_eq h'
    · exact Nat.le_of_lt h'
  · intro hp
    rcases h1 with h' | ⟨_, _, h'⟩
    · exact absurd hp (by rw [show util_next_bit self idx = self.bit_size from h']; omega)
    · exact h'
  · intro hnone
    rcases h1 with h' | ⟨ha, hb, hc⟩
    · exact h'
    · have := hnone _ ha hb
      rw [hc] at this; cases this
  · intro q hq1 hq2 hq3
    exact (h2 q hq1 hq2 hq3).1

/-- Witness for C6: the `BitVector` built from `[1,0,1,1,0]` has `next_bit(1) == 2`, and on
the one built from five zeros `next_bit(0)` is the sentinel `bit_size() == 5`. -/
theorem next_bit_smallest_witness :
    add_class_.init Kind.BitVector [1, 0, 1, 1, 0] = .ok example_bit_vector ∧
    add_class_.next_bit example_bit_vector 1 = .ok 2 ∧
    add_class_.init Kind.BitVector [0, 0, 0, 0, 0] = .ok example_zero_bits ∧
    add_class_.next_bit example_zero_bits 0 = .ok example_zero_bits.bit_size ∧
    1 < example_bit_vector.bit_size ∧
    ∃ p, add_class_.next_bit example_bit_vector 1 = .ok p ∧ 1 ≤ p ∧ p ≤ example_bit_vector.bit_size ∧
      (p < example_bit_vector.bit_size → example_bit_vector.store.get_bit p = true) ∧
      (∀ q, 1 ≤ q → q < p → example_bit_vector.store.get_bit q = false) ∧
      ((∀ q, 1 ≤ q → q < example_bit_vector.bit_size →
        example_bit_vector.store.get_bit q = false) → p = example_bit_vector.bit_size) ∧
      (∀ q, 1 ≤ q → q < example_bit_vector.bit_size →
        example_bit_vector.store.get_bit q = true → p ≤ q) :=
  ⟨by decide, by decide, by decide, by decide, by decide,
   next_bit_smallest example_bit_vector 1 (by decide)⟩

/-! ## Modulo-assign -/

/-- The element-wise pass of `mod` on a well-formed vector: it succeeds, keeps the header
and replaces exactly the slots `i .. i+count-1` by their value modulo `m`. -/
theorem mod_loop_spec (m : Nat) (v : int_vector) (i count : Nat) (hwf : v.WF)
    (hr : i + count ≤ v.length) :
    ∃ r, mod_loop m v i count = .ok r ∧ r.WF ∧ r.kind = v.kind ∧ r.width = v.width ∧
      r.length = v.length ∧
      ∀ j, r.element j = if i ≤ j ∧ j < i + count then v.element j % m else v.element j := by
  induction count generalizing v i with
  | zero =>
    exact ⟨v, rfl, hwf, rfl, rfl, rfl, fun j => by rw [if_neg (by omega)]⟩
  | succ k ih =>
    have hi : i < v.length := by omega
    obtain ⟨r, hr', hwf', hk, hw, hl, hel⟩ :=
      ih (v.write i (v.element i % m)) (i + 1) (hwf.write_wf _ _) (by
        rw [int_vector.write_length]; omega)
    refine ⟨r, ?_, hwf', hk, hw, hl, fun j => ?_⟩
    · rw [mod_loop, hwf.read_ok hi]
      exact hr'
    · rw [hel j]
      have hfit : v.element i % m % 2 ^ v.width = v.element i % m :=
        Nat.mod_eq_of_lt (Nat.lt_of_le_of_lt (Nat.mod_le _ _) (v.element_lt i))
      by_cases hj : j = i
      · subst hj
        rw [if_neg (by omega), if_pos (by omega), int_vector.element_write_self, hfit]
      · have hne := int_vector.element_write_ne v i j (v.element i % m) (fun e => hj e.symm)
        by_cases hrange : i + 1 ≤ j ∧ j < i + 1 + k
        · rw [if_pos hrange, if_pos (by omega), hne]
        · rw [if_neg hrange, if_neg (by omega), hne]

/-- C8: on a packed vector `__imod__` with modulus `0` fails with `DivisionByZero`; with a
modulus `m != 0` it succeeds, keeps the length (and the width) and every element read
back is the old element modulo `m`. -/
theorem imod_spec (self : int_vector) (m : Nat) (hwf : self.WF) :
    (m = 0 → add_class_.__imod__ self m = .error .DivisionByZero) ∧
    (m ≠ 0 → ∃ r, add_class_.__imod__ self m = .ok r ∧ r.length = self.length ∧ r.width = self.width ∧
      ∀ i, i < self.length →
        add_class_.__getitem__ self i = .ok (self.element i) ∧
        add_class_.__getitem__ r i = .ok (self.element i % m)) := by
  constructor
  · intro h0
    unfold add_class_.__imod__ util_mod
    rw [if_pos h0]
  · intro hm
    obtain ⟨r, hr, hwf', -, hw, hl, hel⟩ :=
      mod_loop_spec m self 0 self.length hwf (by omega)
    refine ⟨r, ?_, hl, hw, fun i hi => ⟨getitem_of_lt hwf hi, ?_⟩⟩
    · unfold add_class_.__imod__ util_mod
      rw [if_neg hm]
      show (match mod_loop m self 0 self.length with
        | .error e => Except.error e
        | .ok v => Except.ok v) = _
      rw [hr]
    · rw [getitem_of_lt hwf' (show i < r.size by rw [int_vector.size, hl]; exact hi), hel i,
        if_pos (by omega)]

/-- Witness for C8: `Int8Vector([5,3,9,1,9,1]) %= 4`. -/
theorem imod_spec_witness :
    example_byte_vector.WF ∧
    ((4 = 0 → add_class_.__imod__ example_byte_vector 4 = .error .DivisionByZero) ∧
    (4 ≠ 0 → ∃ r, add_class_.__imod__ example_byte_vector 4 = .ok r ∧
      r.length = example_byte_vector.length ∧ r.width = example_byte_vector.width ∧
      ∀ i, i < example_byte_vector.length →
        add_class_.__getitem__ example_byte_vector i = .ok (example_byte_vector.element i) ∧
        add_class_.__getitem__ r i = .ok (example_byte_vector.element i % 4))) :=
  ⟨⟨by decide, by decide, by decide, by decide, by decide⟩,
   imod_spec example_byte_vector 4 ⟨by decide, by decide, by decide, by decide, by decide⟩⟩

/-! ## Width expansion -/

/-- Writing slot `i` of width `w` leaves the bits of another slot `j` alone. -/
theorem BitStore.read_slot_write_ne (s : BitStore) (w i j x : Nat) (hij : i ≠ j) :
    (s.write_bits (i * w) w x).read_from (j * w) w = s.read_from (j * w) w := by
  apply BitStore.read_from_congr
  intro k hk
  show (s.write_from (i * w) x w).get_bit (j * w + k) = _
  rw [BitStore.get_bit_write_from, if_neg (int_vector.slot_disjoint w i j k hij hk)]

/-- The repacking pass on a well-formed vector: it succeeds and the new store holds the
old elements `i .. i+count-1` at the new width, every other slot being as before. -/
theorem repack_loop_spec (old : int_vector) (new_width : Nat) (s : BitStore) (i count : Nat)
    (hwf : old.WF) (hr : i + count ≤ old.length) :
    ∃ t, repack_loop old new_width s i count = .ok t ∧ t.bit_length = s.bit_length ∧
      s.capacity_in_bits ≤ t.capacity_in_bits ∧
      ∀ j, t.read_from (j * new_width) new_width =
        if i ≤ j ∧ j < i + count then old.element j % 2 ^ new_width
        else s.read_from (j * new_width) new_width := by
  induction count generalizing s i with
  | zero =>
    exact ⟨s, rfl, rfl, Nat.le_refl _, fun j => by rw [if_neg (by omega)]⟩
  | succ k ih =>
    have hi : i < old.length := by omega
    obtain ⟨t, ht, hb, hc, hel⟩ :=
      ih (s.write_bits (i * new_width) new_width (old.element i)) (i + 1) (by omega)
    refine ⟨t, ?_, ?_, ?_, fun j => ?_⟩
    · rw [repack_loop, hwf.read_ok hi]
      exact ht
    · rw [hb]; exact BitStore.write_from_bit_length _ _ _ _
    · exact Nat.le_trans (BitStore.write_from_capacity_mono _ _ _ _) hc
    · rw [hel j]
      by_cases hj : j = i
      · subst hj
        rw [if_neg (by omega), if_pos (by omega)]
        exact BitStore.read_from_write_from _ _ _ _
      · have hne := BitStore.read_slot_write_ne s new_width i j (old.element i)
          (fun e => hj e.symm)
        by_cases hrange : i + 1 ≤ j ∧ j < i + 1 + k
        · rw [if_pos hrange, if_pos (by omega)]
        · rw [if_neg hrange, if_neg (by omega), hne]

/-- C9: on an `IntVector`, `expand_width(new_width)` fails with `InvalidWidth` when
`new_width < width` or `new_width` lies outside `1..=64`; when
`width <= new_width <= 64` it succeeds, the width becomes `new_width`, the length is
kept and `__getitem__` returns the same value as before at every `i < length`. -/
theorem expand_width_spec (self : int_vector) (new_width : Nat) (hwf : self.WF)
    (hkind : self.kind = Kind.IntVector) :
    ((new_width < self.width ∨ new_width < 1 ∨ 64 < new_width) →
      expand_width self new_width = .error .InvalidWidth) ∧
    (self.width ≤ new_width → new_width ≤ 64 →
      ∃ r, expand_width self new_width = .ok r ∧ r.WF ∧ r.width = new_width ∧
        r.length = self.length ∧
        ∀ i, i < self.length → add_class_.__getitem__ r i = add_class_.__getitem__ self i) := by
  constructor
  · intro hbad
    unfold expand_width util_expand_width
    rw [if_pos hbad]
  · intro hge hle
    have hpos : 1 ≤ new_width := Nat.le_trans hwf.width_pos hge
    obtain ⟨t, ht, hb, hc, hel⟩ := repack_loop_spec self new_width
      (int_vector.blank self.kind self.length new_width).store 0 self.length hwf (by omega)
    have hres := (BitStore.reserve_capacity
      { words := [], bit_length := self.length * new_width } (self.length * new_width)).1
    have hwf' : int_vector.WF { self with width := new_width, store := t } := by
      refine ⟨hpos, hle, fun h0 => ?_, ?_, ?_⟩
      · exact absurd (show self.kind.t_width = 0 by rw [hkind]; rfl) h0
      · show self.length * new_width ≤ t.bit_length
        rw [hb]; exact Nat.le_refl _
      · show t.bit_length ≤ t.capacity_in_bits
        rw [hb]; exact Nat.le_trans hres hc
    refine ⟨{ self with width := new_width, store := t }, ?_, hwf', rfl, rfl, fun i hi => ?_⟩
    · unfold expand_width util_expand_width
      rw [if_neg (by omega)]
      show (match repack_loop self new_width
          (int_vector.blank self.kind self.length new_width).store 0 self.length with
        | .error e => Except.error e
        | .ok s => Except.ok { self with width := new_width, store := s }) = _
      rw [ht]
    · rw [getitem_of_lt hwf' hi, getitem_of_lt hwf hi]
      show Except.ok (t.read_from (i * new_width) new_width) = _
      rw [hel i, if_pos (by omega), Nat.mod_eq_of_lt (Nat.lt_of_lt_of_le (self.element_lt i)
        (Nat.pow_le_pow_right (by decide) hge))]

/-- Witness for C9: `IntVector(size=5, default_value=3, bit_width=4)` expanded to width 9. -/
theorem expand_width_spec_witness :
    example_int_vector.WF ∧ example_int_vector.kind = Kind.IntVector ∧
    (((9 < example_int_vector.width ∨ 9 < 1 ∨ 64 < 9) →
      expand_width example_int_vector 9 = .error .InvalidWidth) ∧
    (example_int_vector.width ≤ 9 → 9 ≤ 64 →
      ∃ r, expand_width example_int_vector 9 = .ok r ∧ r.WF ∧ r.width = 9 ∧
        r.length = example_int_vector.length ∧
        ∀ i, i < example_int_vector.length → add_class_.__getitem__ r i = add_class_.__getitem__ example_int_vector i)) :=
  ⟨int_vector.new_WF _ _ _ _ (fun _ => ⟨by decide, by decide⟩), by decide,
   expand_width_spec example_int_vector 9
     (int_vector.new_WF _ _ _ _ (fun _ => ⟨by decide, by decide⟩)) (by decide)⟩

/-! ## `max`, `min`, `minmax` -/

namespace add_std_algo

theorem max_element_loop_spec (size : Nat) (deref : Nat → Except Error Nat) (elems : Nat → Nat)
    (hderef : ∀ i, i < size → deref i = .ok (elems i)) (largest it count : Nat)
    (hl : largest < it) (hsize : it + count = size)
    (hmax : ∀ j, j < it → elems j ≤ elems largest) :
    ∃ r, max_element_loop deref largest it count = .ok r ∧ r < size ∧
      ∀ j, j < size → elems j ≤ elems r := by
  induction count generalizing largest it with
  | zero =>
    exact ⟨largest, rfl, by omega, fun j hj => hmax j (by omega)⟩
  | succ k ih =>
    rw [max_element_loop, hderef largest (by omega), hderef it (by omega)]
    by_cases hlt : elems largest < elems it
    · simp only [if_pos hlt]
      apply ih it (it + 1) (by omega) (by omega)
      intro j hj
      rcases Nat.lt_or_ge j it with h | h
      · exact Nat.le_trans (hmax j h) (Nat.le_of_lt hlt)
      · have : j = it := by omega
        rw [this]
    · simp only [if_neg hlt]
      apply ih largest (it + 1) (by omega) (by omega)
      intro j hj
      rcases Nat.lt_or_ge j it with h | h
      · exact hmax j h
      · have : j = it := by omega
        rw [this]; omega

theorem min_element_loop_spec (size : Nat) (deref : Nat → Except Error Nat) (elems : Nat → Nat)
    (hderef : ∀ i, i < size → deref i = .ok (elems i)) (smallest it count : Nat)
    (hl : smallest < it) (hsize : it + count = size)
    (hmin : ∀ j, j < it → elems smallest ≤ elems j) :
    ∃ r, min_element_loop deref smallest it count = .ok r ∧ r < size ∧
      ∀ j, j < size → elems r ≤ elems j := by
  induction count generalizing smallest it with
  | zero =>
    exact ⟨smallest, rfl, by omega, fun j hj => hmin j (by omega)⟩
  | succ k ih =>
    rw [min_element_loop, hderef smallest (by omega), hderef it (by omega)]
    by_cases hlt : elems it < elems smallest
    · simp only [if_pos hlt]
      apply ih it (it + 1) (by omega) (by omega)
      intro j hj
      rcases Nat.lt_or_ge j it with h | h
      · exact Nat.le_trans (Nat.le_of_lt hlt) (hmin j h)
      · have : j = it := by omega
        rw [this]
    · simp only [if_neg hlt]
      apply ih smallest (it + 1) (by omega) (by omega)
      intro j hj
      rcases Nat.lt_or_ge j it with h | h
      · exact hmin j h
      · have : j = it := by omega
        rw [this]; omega

theorem minmax_element_loop_spec (size : Nat) (deref : Nat → Except Error Nat)
    (elems : Nat → Nat) (hderef : ∀ i, i < size → deref i = .ok (elems i))
    (smallest largest it count : Nat) (hs : smallest < it) (hl : largest < it)
    (hsize : it + count = size)
    (hmin : ∀ j, j < it → elems smallest ≤ elems j)
    (hmax : ∀ j, j < it → elems j ≤ elems largest) :
    ∃ lo hi, minmax_element_loop deref smallest largest it count = .ok (lo, hi) ∧
      lo < size ∧ hi < size ∧
      (∀ j, j < size → elems lo ≤ elems j) ∧ (∀ j, j < size → elems j ≤ elems hi) := by
  induction count generalizing smallest largest it with
  | zero =>
    exact ⟨smallest, largest, rfl, by omega, by omega, fun j hj => hmin j (by omega),
      fun j hj => hmax j (by omega)⟩
  | succ k ih =>
    rw [minmax_element_loop, hderef smallest (by omega), hderef largest (by omega),
      hderef it (by omega)]
    have hsl := hmin largest hl
    by_cases h1 : elems it < elems smallest
    · simp only [if_pos h1]
      apply ih it largest (it + 1) (by omega) (by omega) (by omega)
      · intro j hj
        rcases Nat.lt_or_ge j it with h | h
        · exact Nat.le_trans (Nat.le_of_lt h1) (hmin j h)
        · have : j = it := by omega
          rw [this]
      · intro j hj
        rcases Nat.lt_or_ge j it with h | h
        · exact hmax j h
        · have : j = it := by omega
          rw [this]; omega
    · simp only [if_neg h1]
      by_cases h2 : elems it < elems largest
      · simp only [if_pos h2]
        apply ih smallest largest (it + 1) (by omega) (by omega) (by omega)
        · intro j hj
          rcases Nat.lt_or_ge j it with h | h
          · exact hmin j h
          · have : j = it := by omega
            rw [this]; omega
        · intro j hj
          rcases Nat.lt_or_ge j it with h | h
          · exact hmax j h
          · have : j = it := by omega
            rw [this]; omega
      · simp only [if_neg h2]
        apply ih smallest it (it + 1) (by omega) (by omega) (by omega)
        · intro j hj
          rcases Nat.lt_or_ge j it with h | h
          · exact hmin j h
          · have : j = it := by omega
            rw [this]; omega
        · intro j hj
          rcases Nat.lt_or_ge j it with h | h
          · exact Nat.le_trans (hmax j h) (by omega)
          · have : j = it := by omega
            rw [this]

end add_std_algo

/-- C10 (as amended): on a non-empty container whose elements all read back, `min()`
returns the smallest element, `max()` the largest and `minmax()` the pair of the two. -/
theorem std_algo_nonempty (size : Nat) (deref : Nat → Except Error Nat) (elems : Nat → Nat)
    (hderef : ∀ i, i < size → deref i = .ok (elems i)) (hne : 0 < size) :
    ∃ lo hi, add_std_algo.min size deref = .ok lo ∧ add_std_algo.max size deref = .ok hi ∧
      add_std_algo.minmax size deref = .ok (lo, hi) ∧
      (∃ i, i < size ∧ elems i = lo) ∧ (∀ i, i < size → lo ≤ elems i) ∧
      (∃ i, i < size ∧ elems i = hi) ∧ (∀ i, i < size → elems i ≤ hi) := by
  have h0 : ¬ (0 = size) := by omega
  obtain ⟨a, ha, ha1, ha2⟩ := add_std_algo.min_element_loop_spec size deref elems hderef 0 1
    (size - 1) (by omega) (by omega) (fun j hj => by
      have : j = 0 := by omega
      rw [this])
  obtain ⟨b, hb, hb1, hb2⟩ := add_std_algo.max_element_loop_spec size deref elems hderef 0 1
    (size - 1) (by omega) (by omega) (fun j hj => by
      have : j = 0 := by omega
      rw [this])
  obtain ⟨c, d, hcd, hc1, hd1, hc2, hd2⟩ := add_std_algo.minmax_element_loop_spec size deref
    elems hderef 0 0 1 (size - 1) (by omega) (by omega) (by omega)
    (fun j hj => by
      have : j = 0 := by omega
      rw [this])
    (fun j hj => by
      have : j = 0 := by omega
      rw [this])
  have hca : elems c = elems a := Nat.le_antisymm (hc2 a ha1) (ha2 c hc1)
  have hdb : elems d = elems b := Nat.le_antisymm (hb2 d hd1) (hd2 b hb1)
  refine ⟨elems a, elems b, ?_, ?_, ?_, ⟨a, ha1, rfl⟩, ha2, ⟨b, hb1, rfl⟩, hb2⟩
  · unfold add_std_algo.min add_std_algo.min_element
    rw [if_neg h0]
    show (match add_std_algo.min_element_loop deref 0 1 (size - 1) with
      | .error e => Except.error e
      | .ok it => deref it) = _
    rw [ha]
    exact hderef a ha1
  · unfold add_std_algo.max add_std_algo.max_element
    rw [if_neg h0]
    show (match add_std_algo.max_element_loop deref 0 1 (size - 1) with
      | .error e => Except.error e
      | .ok it => deref it) = _
    rw [hb]
    exact hderef b hb1
  · unfold add_std_algo.minmax add_std_algo.minmax_element
    rw [if_neg h0]
    show (match add_std_algo.minmax_element_loop deref 0 0 1 (size - 1) with
      | .error e => Except.error e
      | .ok (lo, hi) =>
          match deref lo, deref hi with
          | .ok a, .ok b => Except.ok (a, b)
          | .error e, _ => Except.error e
          | _, .error e => Except.error e) = _
    rw [hcd]
    show (match deref c, deref d with
          | .ok a, .ok b => Except.ok (a, b)
          | .error e, _ => Except.error e
          | _, .error e => Except.error e) = _
    rw [hderef c hc1, hderef d hd1, hca, hdb]

/-- Witness for C10 (as amended): `Int8Vector([5,3,9,1,9,1])`. -/
theorem std_algo_nonempty_witness :
    (∀ i, i < example_byte_vector.size →
      example_byte_vector.read i = .ok (example_byte_vector.element i)) ∧
    0 < example_byte_vector.size ∧
    example_byte_vector.min = .ok 1 ∧ example_byte_vector.max = .ok 9 ∧
    example_byte_vector.minmax = .ok (1, 9) ∧
    ∃ lo hi, add_std_algo.min example_byte_vector.size example_byte_vector.read = .ok lo ∧
      add_std_algo.max example_byte_vector.size example_byte_vector.read = .ok hi ∧
      add_std_algo.minmax example_byte_vector.size example_byte_vector.read = .ok (lo, hi) ∧
      (∃ i, i < example_byte_vector.size ∧ example_byte_vector.element i = lo) ∧
      (∀ i, i < example_byte_vector.size → lo ≤ example_byte_vector.element i) ∧
      (∃ i, i < example_byte_vector.size ∧ example_byte_vector.element i = hi) ∧
      (∀ i, i < example_byte_vector.size → example_byte_vector.element i ≤ hi) :=
  ⟨by decide, by decide, by decide, by decide, by decide,
   std_algo_nonempty example_byte_vector.size example_byte_vector.read
     example_byte_vector.element (by decide) (by decide)⟩

set_option maxRecDepth 100000 in
/-- C10, the claim as stated fails: on a zero-length vector no `EmptyVector` failure is
raised.  The end iterator is dereferenced; where the storage behind it is still reserved
the stale value comes back, where nothing is reserved the read itself is out of range. -/
theorem std_algo_empty_no_failure :
    example_shrunk_vector.size = 0 ∧ example_shrunk_vector.WF ∧
    example_shrunk_vector.max = .ok 7 ∧ example_shrunk_vector.min = .ok 7 ∧
    example_shrunk_vector.minmax = .ok (7, 7) ∧
    example_shrunk_vector.max ≠ .error .EmptyVector ∧
    (int_vector.new Kind.IntVector 0 0 64).max = .error .OutOfRange :=
  ⟨by decide, ⟨by decide, by decide, by decide, by decide, by decide⟩, by decide, by decide,
   by decide, by decide, by decide⟩

/-! ## The coders are self-delimiting -/

namespace coder

theorem to_bits_msb_length (w v : Nat) : (to_bits_msb w v).length = w := by
  induction w with
  | zero => rfl
  | succ n ih => rw [to_bits_msb, List.length_cons, ih]

theorem mod_two_pow_succ (v w : Nat) :
    v % 2 ^ (w + 1) = 2 ^ w * (v.testBit w).toNat + v % 2 ^ w := by
  rw [Nat.mod_pow_succ, Nat.add_comm, Nat.toNat_testBit]

/-- Reading back the bits written by `to_bits_msb` yields the value written. -/
theorem read_msb_to_bits (w acc v : Nat) (tail : List Bool) :
    read_msb w acc (to_bits_msb w v ++ tail) = some (acc * 2 ^ w + v % 2 ^ w, tail) := by
  induction w generalizing acc with
  | zero => simp [read_msb, to_bits_msb, Nat.mod_one]
  | succ n ih =>
    rw [to_bits_msb, List.cons_append, read_msb, ih, mod_two_pow_succ, Nat.pow_succ]
    congr 2
    rw [Nat.add_mul, Nat.mul_comm (2 ^ n) (v.testBit n).toNat]
    ring

theorem floor_log2_loop_eq (fuel v : Nat) (h : v ≤ fuel) : floor_log2_loop fuel v = v.log2 := by
  induction fuel generalizing v with
  | zero =>
    have : v = 0 := by omega
    subst this
    rw [Nat.log2]
    rfl
  | succ k ih =>
    rw [floor_log2_loop, Nat.log2]
    by_cases h2 : 2 ≤ v
    · rw [if_pos h2, if_pos h2, ih (v / 2) (by omega)]
    · rw [if_neg h2, if_neg h2]

theorem floor_log2_eq (v : Nat) : floor_log2 v = v.log2 :=
  floor_log2_loop_eq v v (Nat.le_refl v)

theorem testBit_log2 (v : Nat) (hv : v ≠ 0) : v.testBit v.log2 = true := by
  rw [Nat.testBit_to_div_mod]
  have h1 := Nat.log2_self_le hv
  have h2 : v < 2 ^ (v.log2 + 1) := Nat.lt_log2_self
  have h3 : 0 < v / 2 ^ v.log2 := Nat.div_pos h1 (Nat.two_pow_pos _)
  have h4 : v / 2 ^ v.log2 < 2 := by
    apply Nat.div_lt_of_lt_mul
    rw [Nat.pow_succ] at h2
    exact h2
  have : v / 2 ^ v.log2 % 2 = 1 := by omega
  simp [this]

theorem mod_two_pow_log2 (v : Nat) (hv : v ≠ 0) : 2 ^ v.log2 + v % 2 ^ v.log2 = v := by
  have h := mod_two_pow_succ v v.log2
  rw [testBit_log2 v hv, Nat.mod_eq_of_lt Nat.lt_log2_self] at h
  simp at h
  omega

namespace elias_gamma

theorem skip_zeros_replicate (n m : Nat) (tail : List Bool) :
    skip_zeros (List.replicate n false ++ true :: tail) m = some (m + n, true :: tail) := by
  induction n generalizing m with
  | zero => simp [skip_zeros]
  | succ k ih =>
    rw [List.replicate_succ, List.cons_append, skip_zeros, ih]
    congr 2; omega

/-- EliasGamma round-trips and is self-delimiting on its domain. -/
theorem gamma_decode_encode (v : Nat) (hv : 1 ≤ v) (tail : List Bool) :
    decode (encode v ++ tail) = some (v, tail) := by
  have hv0 : v ≠ 0 := by omega
  unfold decode encode
  rw [floor_log2_eq, to_bits_msb, testBit_log2 v hv0, List.append_assoc, List.cons_append,
    skip_zeros_replicate]
  show read_msb (0 + v.log2 + 1) 0 (true :: (to_bits_msb v.log2 v ++ tail)) = _
  have hb : true :: (to_bits_msb v.log2 v ++ tail) = to_bits_msb (v.log2 + 1) v ++ tail := by
    rw [to_bits_msb, testBit_log2 v hv0, List.cons_append]
  rw [hb, Nat.zero_add, read_msb_to_bits, Nat.zero_mul, Nat.zero_add,
    Nat.mod_eq_of_lt Nat.lt_log2_self]

theorem gamma_encode_length (v : Nat) : (encode v).length = 2 * v.log2 + 1 := by
  unfold encode
  rw [floor_log2_eq, List.length_append, List.length_replicate, to_bits_msb_length]
  omega

end elias_gamma

namespace elias_delta

/-- EliasDelta round-trips and is self-delimiting on its domain. -/
theorem delta_decode_encode (v : Nat) (hv : 1 ≤ v) (tail : List Bool) :
    decode (encode v ++ tail) = some (v, tail) := by
  have hv0 : v ≠ 0 := by omega
  unfold decode encode
  rw [floor_log2_eq, List.append_assoc, elias_gamma.gamma_decode_encode (v.log2 + 1) (by omega)]
  show (if v.log2 + 1 = 0 then none
    else read_msb (v.log2 + 1 - 1) 1 (to_bits_msb v.log2 v ++ tail)) = _
  rw [if_neg (by omega), Nat.add_sub_cancel, read_msb_to_bits, Nat.one_mul,
    mod_two_pow_log2 v hv0]

end elias_delta

end coder

namespace coder

namespace fibonacci

theorem weight_append (idx : Nat) (xs ys : List Bool) :
    weight idx (xs ++ ys) = weight idx xs + weight (idx + xs.length) ys := by
  induction xs generalizing idx with
  | nil => simp [weight]
  | cons x xs ih =>
    rw [List.cons_append, weight, weight, ih, List.length_cons]
    rw [show idx + 1 + xs.length = idx + (xs.length + 1) by omega]
    omega

/-- The greedy pass yields `n` bits in front of `acc` that weigh `remaining` and keeps the
pattern free of consecutive 1 bits. -/
theorem greedy_spec (n remaining : Nat) (acc : List Bool)
    (hlt : remaining < Nat.fib (n + 2))
    (hhead : acc.head? = some true → remaining < Nat.fib (n + 1))
    (hacc : sparse acc) :
    ∃ zs, greedy n remaining acc = zs ++ acc ∧ zs.length = n ∧ sparse (zs ++ acc) ∧
      weight 0 zs = remaining := by
  induction n generalizing remaining acc with
  | zero =>
    refine ⟨[], rfl, rfl, hacc, ?_⟩
    have : Nat.fib 2 = 1 := Nat.fib_two
    rw [show (0 : Nat) + 2 = 2 by rfl, this] at hlt
    show 0 = remaining
    omega
  | succ m ih =>
    have hfib : Nat.fib (m + 3) = Nat.fib (m + 1) + Nat.fib (m + 2) := Nat.fib_add_two
    have hmono : Nat.fib (m + 1) ≤ Nat.fib (m + 2) := Nat.fib_le_fib_succ
    rw [show m + 1 + 2 = m + 3 by omega] at hlt
    rw [show m + 1 + 1 = m + 2 by omega] at hhead
    rw [greedy]
    by_cases hle : Nat.fib (m + 2) ≤ remaining
    · rw [if_pos hle]
      have hnot : acc.head? ≠ some true := fun h => absurd (hhead h) (by omega)
      have hsp : sparse (true :: acc) := by
        cases acc with
        | nil => exact List.chain'_singleton _
        | cons a rest =>
          refine List.Chain'.cons ?_ hacc
          rintro ⟨-, ha⟩
          exact hnot (by rw [ha]; rfl)
      obtain ⟨zs, h1, h2, h3, h4⟩ := ih (remaining - Nat.fib (m + 2)) (true :: acc)
        (by omega) (fun _ => by omega) hsp
      refine ⟨zs ++ [true], ?_, ?_, ?_, ?_⟩
      · rw [h1, List.append_assoc]; rfl
      · rw [List.length_append, h2]; rfl
      · rw [List.append_assoc]; exact h3
      · rw [weight_append, h4, h2, weight, weight, if_pos rfl, Nat.zero_add]
        omega
    · rw [if_neg hle]
      have hsp : sparse (false :: acc) := by
        cases acc with
        | nil => exact List.chain'_singleton _
        | cons a rest =>
          refine List.Chain'.cons ?_ hacc
          rintro ⟨h, -⟩
          cases h
      obtain ⟨zs, h1, h2, h3, h4⟩ := ih remaining (false :: acc)
        (by omega) (fun h => by cases h) hsp
      refine ⟨zs ++ [false], ?_, ?_, ?_, ?_⟩
      · rw [h1, List.append_assoc]; rfl
      · rw [List.length_append, h2]; rfl
      · rw [List.append_assoc]; exact h3
      · rw [weight_append, h4, weight, weight]
        simp

/-- The decoder's scan over a sparse pattern that ends in a 1, followed by the extra 1. -/
theorem scan_sparse (zs : List Bool) (idx acc : Nat) (prev : Bool) (tail : List Bool)
    (hne : zs ≠ []) (hsp : sparse zs) (hprev : prev = true → zs.head? ≠ some true)
    (hlast : zs.getLast? = some true) :
    scan (zs ++ true :: tail) idx acc prev = some (acc + weight idx zs, tail) := by
  induction zs generalizing idx acc prev with
  | nil => exact absurd rfl hne
  | cons z rest ih =>
    have hpz : (prev && z) = false := by
      cases prev with
      | false => rfl
      | true =>
        cases z with
        | false => rfl
        | true => exact absurd rfl (hprev rfl)
    rw [List.cons_append, scan, hpz]
    cases rest with
    | nil =>
      have hz : z = true := by
        simp at hlast
        exact hlast
      subst hz
      simp [scan, weight]
    | cons z' rest' =>
      have hsp' : sparse (z' :: rest') := List.Chain'.tail hsp
      have hrel : ¬ (z = true ∧ z' = true) := List.Chain'.rel_head hsp
      have hlast' : (z' :: rest').getLast? = some true := by
        rw [List.getLast?_cons_cons] at hlast
        exact hlast
      have := ih (idx + 1) (acc + if z then Nat.fib (idx + 2) else 0) z
        (by simp) hsp' (fun hz h => hrel ⟨hz, by simpa using h⟩) hlast'
      simp only [Bool.false_eq_true, if_false]
      rw [this]
      show some (_, tail) = some (acc + ((if z then Nat.fib (idx + 2) else 0) +
        weight (idx + 1) (z' :: rest')), tail)
      rw [Nat.add_assoc]

theorem terms_spec (v : Nat) (hv : 1 ≤ v) :
    1 ≤ terms v ∧ Nat.fib (terms v + 1) ≤ v ∧ v < Nat.fib (terms v + 2) := by
  have h1 : 1 ≤ terms v :=
    Nat.le_findGreatest (P := fun k => Nat.fib (k + 1) ≤ v) (by omega) (by
      show Nat.fib 2 ≤ v
      rw [Nat.fib_two]; exact hv)
  have h2 : Nat.fib (terms v + 1) ≤ v :=
    Nat.findGreatest_spec (P := fun k => Nat.fib (k + 1) ≤ v) (m := 0) (Nat.zero_le _) (by
      show Nat.fib 1 ≤ v
      rw [Nat.fib_one]; exact hv)
  refine ⟨h1, h2, ?_⟩
  have h3 : terms v ≤ Nat.fib (terms v) + 1 := Nat.le_fib_add_one _
  have h4 : Nat.fib (terms v) ≤ Nat.fib (terms v + 1) := Nat.fib_le_fib_succ
  have h5 := Nat.findGreatest_is_greatest (P := fun k => Nat.fib (k + 1) ≤ v)
    (n := v + 2) (k := terms v + 1) (Nat.lt_succ_self _) (by omega)
  exact Nat.lt_of_not_le h5

/-- Fibonacci round-trips and is self-delimiting on its domain. -/
theorem fibonacci_decode_encode (v : Nat) (hv : 1 ≤ v) (tail : List Bool) :
    decode (encode v ++ tail) = some (v, tail) := by
  obtain ⟨h1, h2, h3⟩ := terms_spec v hv
  obtain ⟨m, hm⟩ : ∃ m, terms v = m + 1 := ⟨terms v - 1, by omega⟩
  rw [hm] at h2 h3
  have hfib : Nat.fib (m + 3) = Nat.fib (m + 1) + Nat.fib (m + 2) := Nat.fib_add_two
  have hmono : Nat.fib (m + 1) ≤ Nat.fib (m + 2) := Nat.fib_le_fib_succ
  rw [show m + 1 + 2 = m + 3 by omega] at h3
  rw [show m + 1 + 1 = m + 2 by omega] at h2
  obtain ⟨zs, hz1, hz2, hz3, hz4⟩ := greedy_spec m (v - Nat.fib (m + 2)) [true]
    (by omega) (fun _ => by omega) (List.chain'_singleton _)
  have henc : encode v = (zs ++ [true]) ++ [true] := by
    unfold encode
    rw [hm, greedy, if_pos h2, hz1]
  unfold decode
  rw [henc, List.append_assoc]
  show scan ((zs ++ [true]) ++ true :: tail) 0 0 false = _
  rw [scan_sparse (zs ++ [true]) 0 0 false tail (by simp) hz3 (fun h => by cases h) (by simp),
    weight_append, hz4, hz2, weight, weight, if_pos rfl, Nat.zero_add, Nat.zero_add,
    Nat.add_zero]
  congr 2
  omega

end fibonacci

namespace comma

theorem value_append (b x : Nat) (ds : List Nat) (d : Nat) :
    value b x (ds ++ [d]) = value b x ds * b + d := by
  simp [value, List.foldl_append]

/-- The digit string of `v`: its digits lie in `1..b` and it stands for `v`. -/
theorem digits_spec (b : Nat) (hb : 1 ≤ b) (fuel v : Nat) (acc : List Nat) (hfuel : v ≤ fuel) :
    ∃ ds, digits b fuel v acc = ds ++ acc ∧ (∀ d ∈ ds, 1 ≤ d ∧ d ≤ b) ∧ value b 0 ds = v := by
  induction fuel generalizing v acc with
  | zero =>
    have : v = 0 := by omega
    subst this
    exact ⟨[], rfl, fun d hd => absurd hd (List.not_mem_nil d), rfl⟩
  | succ k ih =>
    rw [digits]
    by_cases hv : v = 0
    · rw [if_pos hv]
      subst hv
      exact ⟨[], rfl, fun d hd => absurd hd (List.not_mem_nil d), rfl⟩
    · rw [if_neg hv]
      have hmod : (v - 1) % b < b := Nat.mod_lt _ (by omega)
      have hdm := Nat.div_add_mod (v - 1) b
      have hsub : v - ((v - 1) % b + 1) = b * ((v - 1) / b) := by omega
      have hq : (v - ((v - 1) % b + 1)) / b = (v - 1) / b := by
        rw [hsub, Nat.mul_div_cancel_left _ (by omega : 0 < b)]
      have hqle : (v - 1) / b ≤ k := Nat.le_trans (Nat.div_le_self _ _) (by omega)
      rw [hq]
      obtain ⟨ds, h1, h2, h3⟩ := ih ((v - 1) / b) (((v - 1) % b + 1) :: acc) hqle
      refine ⟨ds ++ [(v - 1) % b + 1], ?_, ?_, ?_⟩
      · rw [h1, List.append_assoc]; rfl
      · intro d hd
        rcases List.mem_append.mp hd with h | h
        · exact h2 d h
        · have : d = (v - 1) % b + 1 := by simpa using h
          omega
      · rw [value_append, h3, Nat.mul_comm]
        omega

/-- The decoder's scan over a digit string followed by the comma. -/
theorem scan_symbols (w b : Nat) (ds : List Nat) (fuel acc : Nat) (tail : List Bool)
    (hds : ∀ d ∈ ds, 1 ≤ d ∧ d < 2 ^ w) (hfuel : ds.length < fuel) :
    scan w b fuel acc (write_symbols w ds ++ to_bits_msb w 0 ++ tail) =
      some (value b acc ds, tail) := by
  induction ds generalizing fuel acc with
  | nil =>
    obtain ⟨f, rfl⟩ : ∃ f, fuel = f + 1 := ⟨fuel - 1, by simp at hfuel; omega⟩
    simp [scan, write_symbols, read_msb_to_bits, value]
  | cons d rest ih =>
    obtain ⟨f, rfl⟩ : ∃ f, fuel = f + 1 := ⟨fuel - 1, by simp at hfuel; omega⟩
    have hd := hds d (List.mem_cons_self _ _)
    rw [scan, write_symbols, List.append_assoc, List.append_assoc, read_msb_to_bits,
      Nat.zero_mul, Nat.zero_add, Nat.mod_eq_of_lt hd.2]
    simp only []
    rw [if_neg (by omega), ← List.append_assoc,
      ih f (acc * b + d) (fun x hx => hds x (List.mem_cons_of_mem _ hx))
        (by simp at hfuel; omega)]
    rfl

theorem write_symbols_length (w : Nat) (ds : List Nat) :
    (write_symbols w ds).length = w * ds.length := by
  induction ds with
  | nil => rfl
  | cons d rest ih =>
    rw [write_symbols, List.length_append, to_bits_msb_length, ih, List.length_cons]
    ring

/-- Comma(k) round-trips and is self-delimiting for every value, for `k >= 2`. -/
theorem comma_decode_encode (k : Nat) (hk : 2 ≤ k) (v : Nat) (tail : List Bool) :
    decode k (encode k v ++ tail) = some (v, tail) := by
  obtain ⟨ds, h1, h2, h3⟩ := digits_spec (k - 1) (by omega) v v [] (Nat.le_refl _)
  rw [List.append_nil] at h1
  have hw : k - 1 < 2 ^ symbol_bits k := by
    unfold symbol_bits
    rw [floor_log2_eq]
    exact Nat.lt_log2_self
  unfold decode encode
  rw [h1]
  have hlen : ds.length <
      (write_symbols (symbol_bits k) ds ++ to_bits_msb (symbol_bits k) 0 ++ tail).length := by
    rw [List.length_append, List.length_append, write_symbols_length, to_bits_msb_length]
    have h1w : 1 ≤ symbol_bits k := by unfold symbol_bits; omega
    have : ds.length ≤ symbol_bits k * ds.length := Nat.le_mul_of_pos_left _ h1w
    omega
  rw [scan_symbols (symbol_bits k) (k - 1) ds _ 0 tail
    (fun d hd => ⟨(h2 d hd).1, Nat.lt_of_le_of_lt (h2 d hd).2 hw⟩) hlen, h3]

end comma

end coder

/-- Every registered coder round-trips on its domain and is self-delimiting: decoding the
code of `v` followed by any further bits yields `v` and leaves exactly those bits. -/
theorem Coder.decode_rest_encode (c : Coder) (v : Nat) (hv : c.domain v = true)
    (tail : List Bool) : c.decode_rest (c.encode v ++ tail) = some (v, tail) := by
  cases c
  · exact coder.elias_delta.delta_decode_encode v (by simpa [Coder.domain] using hv) tail
  · exact coder.elias_gamma.gamma_decode_encode v (by simpa [Coder.domain] using hv) tail
  · exact coder.fibonacci.fibonacci_decode_encode v (by simpa [Coder.domain] using hv) tail
  · exact coder.comma.comma_decode_encode 2 (by decide) v tail
  · exact coder.comma.comma_decode_encode 4 (by decide) v tail

/-- The decoder consumes exactly the bits the encoder wrote. -/
theorem Coder.decode_consumes (c : Coder) (v : Nat) (hv : c.domain v = true)
    (tail : List Bool) :
    c.decode (c.encode v ++ tail) = some (v, (c.encode v).length) := by
  unfold Coder.decode
  rw [Coder.decode_rest_encode c v hv tail]
  simp

/-! ## The coded stream -/

namespace BitStore

theorem append_bits_bit_length (s : BitStore) (bits : List Bool) :
    (s.append_bits bits).bit_length = s.bit_length + bits.length := by
  induction bits generalizing s with
  | nil => rfl
  | cons b rest ih =>
    rw [append_bits, ih, List.length_cons]
    show s.bit_length + 1 + rest.length = _
    omega

theorem bits_from_push (s : BitStore) (b : Bool) (cursor : Nat) (h : cursor ≤ s.bit_length) :
    bits_from { s.set_bit s.bit_length b with bit_length := s.bit_length + 1 } cursor =
      bits_from s cursor ++ [b] := by
  unfold bits_from
  show List.map (s.set_bit s.bit_length b).get_bit
      (List.range' cursor (s.bit_length + 1 - cursor)) = _
  rw [show s.bit_length + 1 - cursor = (s.bit_length - cursor) + 1 by omega,
    List.range'_concat, List.map_append]
  congr 1
  · apply List.map_congr_left
    intro j hj
    rw [List.mem_range'_1] at hj
    rw [get_bit_set_bit, if_neg (by omega)]
  · simp only [List.map_cons, List.map_nil, Nat.one_mul]
    rw [show cursor + (s.bit_length - cursor) = s.bit_length by omega, get_bit_set_bit,
      if_pos rfl]

theorem bits_from_append_bits (s : BitStore) (bits : List Bool) (cursor : Nat)
    (h : cursor ≤ s.bit_length) :
    (s.append_bits bits).bits_from cursor = s.bits_from cursor ++ bits := by
  induction bits generalizing s with
  | nil => simp [append_bits]
  | cons b rest ih =>
    rw [append_bits, ih _ (by show cursor ≤ s.bit_length + 1; omega), bits_from_push s b cursor h,
      List.append_assoc]
    rfl

theorem bits_from_add (s : BitStore) (cursor k : Nat) :
    s.bits_from (cursor + k) = (s.bits_from cursor).drop k := by
  unfold bits_from
  rw [← List.map_drop]
  congr 1
  apply List.ext_getElem?
  intro n
  rw [List.getElem?_drop]
  by_cases hn : n < s.bit_length - (cursor + k)
  · rw [List.getElem?_eq_getElem (by simpa using hn),
      List.getElem?_eq_getElem (by simp; omega)]
    simp; omega
  · rw [List.getElem?_eq_none (by simpa using hn), List.getElem?_eq_none (by simp; omega)]

end BitStore

theorem stream_of_append (c : Coder) (xs ys : List Nat) :
    stream_of c (xs ++ ys) = stream_of c xs ++ stream_of c ys := by
  induction xs with
  | nil => rfl
  | cons x rest ih => rw [List.cons_append, stream_of, stream_of, ih, List.append_assoc]

theorem stream_of_drop (c : Coder) (xs : List Nat) (a : Nat) :
    (stream_of c xs).drop (stream_of c (xs.take a)).length = stream_of c (xs.drop a) := by
  have h := stream_of_append c (xs.take a) (xs.drop a)
  rw [List.take_append_drop] at h
  rw [h, List.drop_left]

namespace SampledCodeVector

/-- Decoding `m` codes of a stream that starts with the codes of `ys`: the sum grows by the
first `m` numbers of `ys` and the value decoded last is the `m`-th of them. -/
theorem decode_steps_spec (c : Coder) (stream : BitStore) (m : Nat) (ys : List Nat)
    (cursor sum last : Nat) (tail : List Bool)
    (hdom : ∀ y ∈ ys, c.domain y = true)
    (hbits : stream.bits_from cursor = stream_of c ys ++ tail) (hm : m ≤ ys.length) :
    decode_steps c stream m cursor sum last =
      some (sum + (ys.take m).sum, if m = 0 then last else ys.getD (m - 1) 0) := by
  induction m generalizing ys cursor sum last with
  | zero => simp [decode_steps]
  | succ n ih =>
    cases ys with
    | nil => simp at hm
    | cons y rest =>
      rw [stream_of, List.append_assoc] at hbits
      rw [decode_steps, hbits, Coder.decode_consumes c y (hdom y (List.mem_cons_self _ _))]
      simp only []
      have hnext : stream.bits_from (cursor + (c.encode y).length) = stream_of c rest ++ tail := by
        rw [BitStore.bits_from_add, hbits, List.drop_left]
      rw [ih rest _ (sum + y) y (fun z hz => hdom z (List.mem_cons_of_mem _ hz)) hnext
        (by simpa using hm)]
      congr 2
      · rw [List.take_succ_cons, List.sum_cons, Nat.add_assoc]
      · cases n with
        | zero => simp
        | succ k => simp

end SampledCodeVector

/-- In delta mode the running value before element `a` plus the differences of the
elements `a .. a+k` is element `a+k`, for a non-decreasing sequence. -/
theorem deltas_telescope (values : List Nat) (r a k : Nat)
    (hmono : List.Chain (fun x y => x ≤ y) r values) (hk : a + k < values.length) :
    (if a = 0 then r else values.getD (a - 1) 0) + (((deltas r values).drop a).take (k + 1)).sum =
      values.getD (a + k) 0 := by
  induction values generalizing r a k with
  | nil => simp at hk
  | cons v rest ih =>
    have hrv : r ≤ v := List.rel_of_chain_cons hmono
    have hrest : List.Chain (fun x y => x ≤ y) v rest := (List.chain_cons.mp hmono).2
    cases a with
    | zero =>
      rw [if_pos rfl, deltas, List.drop_zero, List.take_succ_cons, List.sum_cons]
      cases k with
      | zero => simp; omega
      | succ k' =>
        have := ih v 0 k' hrest (by simp at hk; omega)
        rw [if_pos rfl, List.drop_zero] at this
        simp only [Nat.zero_add] at this ⊢
        rw [List.getD_cons_succ, ← this]
        omega
    | succ a' =>
      have := ih v a' k hrest (by simp at hk; omega)
      rw [if_neg (by omega), deltas, List.drop_succ_cons, Nat.add_sub_cancel,
        show a' + 1 + k = (a' + k) + 1 by omega, List.getD_cons_succ, ← this]
      congr 1
      cases a' with
      | zero => simp
      | succ b => simp

namespace SampledCodeVector

/-- The numbers handed to the coder for `items` when the running value is `r`. -/
theorem coded_cons (delta : Bool) (r v : Nat) (rest : List Nat) :
    (if delta then deltas r (v :: rest) else v :: rest) =
      (if delta then v - r else v) :: (if delta then deltas v rest else rest) := by
  cases delta <;> rfl

/-- Where the sample of a multiple of the density sits in the table. -/
theorem sample_slot (sd i L : Nat) (hsd : 0 < sd) (hi : i ≤ L * sd)
    (hL : 1 ≤ L → (L - 1) * sd < i) (s : Nat) (hs : s * sd = i) : s = L := by
  have h1 : s ≤ L := by
    rw [← hs] at hi
    exact Nat.le_of_mul_le_mul_right hi hsd
  rcases Nat.eq_zero_or_pos L with h0 | hpos
  · omega
  · have h2 := hL hpos
    rw [← hs] at h2
    have : L - 1 < s := Nat.lt_of_mul_lt_mul_right h2
    omega

/-- A sampled element gets the next free slot of the table. -/
theorem slot_of_sampled (sd i L : Nat) (h : sample_slots sd i L) (hmod : i % sd = 0) :
    i / sd = L := by
  rcases h with ⟨hsd, hi, hL⟩ | ⟨hsd, hL⟩
  · exact sample_slot sd i L hsd hi hL (i / sd)
      (Nat.div_mul_cancel (Nat.dvd_of_mod_eq_zero hmod))
  · subst hsd
    rw [Nat.mod_zero] at hmod
    rw [hL, if_pos hmod, Nat.div_zero]

/-- The table keeps one slot per sampled element when the pass moves on by one element. -/
theorem sample_slots_step (sd i L : Nat) (h : sample_slots sd i L) :
    sample_slots sd (i + 1) (if i % sd = 0 then L + 1 else L) := by
  have hslot := slot_of_sampled sd i L h
  rcases h with ⟨hsd, hi, hL⟩ | ⟨hsd, hL⟩
  · left
    refine ⟨hsd, ?_⟩
    by_cases hmod : i % sd = 0
    · have hq : i / sd * sd = i := Nat.div_mul_cancel (Nat.dvd_of_mod_eq_zero hmod)
      rw [hslot hmod] at hq
      rw [if_pos hmod, Nat.add_sub_cancel, Nat.add_mul, Nat.one_mul]
      exact ⟨by omega, fun _ => by omega⟩
    · rw [if_neg hmod]
      have hne : i ≠ L * sd := fun e => hmod (by rw [e, Nat.mul_mod_left])
      exact ⟨by omega, fun h1 => Nat.lt_succ_of_lt (hL h1)⟩
  · right
    subst hsd
    refine ⟨rfl, ?_⟩
    rw [Nat.mod_zero, if_neg (Nat.succ_ne_zero i)]
    by_cases h0 : i = 0
    · rw [if_pos h0, hL, if_pos h0]
    · rw [if_neg h0, hL, if_neg h0]

theorem sample_slots_zero (sd : Nat) : sample_slots sd 0 0 := by
  rcases Nat.eq_zero_or_pos sd with h | h
  · exact Or.inr ⟨h, rfl⟩
  · exact Or.inl ⟨h, Nat.zero_le _, fun h1 => absurd h1 (by decide)⟩

theorem div_mul_div (i sd : Nat) : i / sd * sd / sd = i / sd := by
  rcases Nat.eq_zero_or_pos sd with h | h
  · subst h
    rw [Nat.div_zero, Nat.div_zero]
  · exact Nat.mul_div_cancel _ h

/-- The forward pass of `build`: it succeeds when every number handed to the coder lies in
its domain and the values do not decrease in delta mode; it appends the codes to the
stream, keeps the samples it found and records one sample for every sampled index it
walks over. -/
theorem build_loop_spec (c : Coder) (delta : Bool) (sd : Nat)
    (items : List Nat) (stream : BitStore) (samples : List Sample) (r i : Nat)
    (hr : delta = false → r = 0)
    (hmono : delta = true → List.Chain (fun x y => x ≤ y) r items)
    (hdom : ∀ x ∈ (if delta then deltas r items else items), c.domain x = true)
    (hinv : sample_slots sd i samples.length) :
    ∃ stream' samples', build_loop c delta sd stream samples r i items = .ok (stream', samples') ∧
      (∀ cursor, cursor ≤ stream.bit_length →
        stream'.bits_from cursor =
          stream.bits_from cursor ++ stream_of c (if delta then deltas r items else items)) ∧
      (∀ s, s < samples.length → samples'[s]? = samples[s]?) ∧
      (∀ j, (i + j) % sd = 0 → j < items.length →
        samples'[(i + j) / sd]? = some ⟨stream.bit_length +
            (stream_of c ((if delta then deltas r items else items).take j)).length,
          if delta then (if j = 0 then r else items.getD (j - 1) 0) else 0⟩) := by
  induction items generalizing stream samples r i with
  | nil =>
    refine ⟨stream, samples, rfl, fun cursor _ => ?_, fun _ _ => rfl, fun j _ hj => ?_⟩
    · cases delta <;> simp [deltas, stream_of]
    · simp at hj
  | cons v rest ih =>
    rw [coded_cons] at hdom
    have hx : c.domain (if delta then v - r else v) = true := hdom _ (List.mem_cons_self _ _)
    have hnot : ¬ (delta = true ∧ v < r) := by
      rintro ⟨hd, hlt⟩
      have := List.rel_of_chain_cons (hmono hd)
      omega
    have hstep : sample_slots sd (i + 1)
        (if i % sd = 0 then samples ++ [(⟨stream.bit_length, r⟩ : Sample)] else samples).length := by
      have := sample_slots_step sd i samples.length hinv
      by_cases hmod : i % sd = 0
      · rw [if_pos hmod] at this ⊢
        rw [List.length_append, List.length_singleton]
        exact this
      · rw [if_neg hmod] at this ⊢
        exact this
    obtain ⟨stream', samples', hb, hbits, hkeep, hnew⟩ :=
      ih (stream.append_bits (c.encode (if delta then v - r else v)))
        (if i % sd = 0 then samples ++ [⟨stream.bit_length, r⟩] else samples)
        (if delta then v else 0) (i + 1)
        (fun hd => by rw [hd]; rfl)
        (fun hd => by
          rw [hd]
          exact (List.chain_cons.mp (hmono hd)).2)
        (fun x hxmem => hdom x (List.mem_cons_of_mem _ (by
          cases delta
          · exact hxmem
          · exact hxmem)))
        hstep
    have hlen1 : (stream.append_bits (c.encode (if delta then v - r else v))).bit_length =
        stream.bit_length + (c.encode (if delta then v - r else v)).length :=
      BitStore.append_bits_bit_length _ _
    have hold : ∀ s, s < samples.length → samples'[s]? = samples[s]? := by
      intro s hs
      rw [hkeep s (by
        by_cases hmod : i % sd = 0
        · rw [if_pos hmod, List.length_append]; omega
        · rw [if_neg hmod]; exact hs)]
      by_cases hmod : i % sd = 0
      · rw [if_pos hmod, List.getElem?_append_left hs]
      · rw [if_neg hmod]
    refine ⟨stream', samples', ?_, fun cursor hc => ?_, hold, fun j hs hj => ?_⟩
    · rw [build_loop, if_neg hnot, if_pos hx]
      exact hb
    · rw [hbits cursor (by rw [hlen1]; omega), BitStore.bits_from_append_bits _ _ _ hc,
        coded_cons, stream_of, List.append_assoc]
      cases delta <;> rfl
    · cases j with
      | zero =>
        have hmod : i % sd = 0 := hs
        have hslot := slot_of_sampled sd i samples.length hinv hmod
        rw [Nat.add_zero, hslot,
          hkeep samples.length (by
            rw [if_pos hmod, List.length_append, List.length_singleton]; omega),
          if_pos hmod, List.getElem?_append_right (Nat.le_refl _), Nat.sub_self]
        cases delta
        · have := hr rfl
          subst this
          simp [stream_of]
        · simp [stream_of]
      | succ j' =>
        have hidx : i + (j' + 1) = i + 1 + j' := by omega
        rw [hidx] at hs ⊢
        rw [hnew j' hs (by simpa using hj), hlen1, coded_cons, List.take_succ_cons,
          stream_of, List.length_append]
        congr 2
        · cases delta <;> simp <;> omega
        · cases delta
          · rfl
          · cases j' with
            | zero => simp
            | succ t => simp

/-- A forward pass that succeeds was handed numbers of the coder's domain only and, in delta
mode, values that do not decrease. -/
theorem build_loop_ok_inv (c : Coder) (delta : Bool) (sd : Nat)
    (items : List Nat) (stream : BitStore) (samples : List Sample) (r i : Nat)
    (result : BitStore × List Sample)
    (hb : build_loop c delta sd stream samples r i items = .ok result) :
    (delta = true → List.Chain (fun x y => x ≤ y) r items) ∧
    (∀ x ∈ (if delta then deltas r items else items), c.domain x = true) := by
  induction items generalizing stream samples r i with
  | nil =>
    refine ⟨fun _ => List.Chain.nil, fun x hx => ?_⟩
    cases delta <;> simp [deltas] at hx
  | cons v rest ih =>
    rw [build_loop] at hb
    by_cases hnot : delta = true ∧ v < r
    · rw [if_pos hnot] at hb; cases hb
    · rw [if_neg hnot] at hb
      by_cases hx : c.domain (if delta then v - r else v) = true
      · rw [if_pos hx] at hb
        obtain ⟨h1, h2⟩ := ih _ _ _ _ hb
        refine ⟨fun hd => ?_, fun x hxmem => ?_⟩
        · refine List.Chain.cons (by
            have : ¬ v < r := fun hlt => hnot ⟨hd, hlt⟩
            omega) ?_
          have := h1 hd
          rw [hd] at this
          exact this
        · rw [coded_cons] at hxmem
          rcases List.mem_cons.mp hxmem with rfl | hmem
          · exact hx
          · apply h2
            cases delta
            · exact hmem
            · exact hmem
      · rw [if_neg hx] at hb; cases hb

end SampledCodeVector

/-! ## Random access into a sampled code vector -/

theorem deltas_length (r : Nat) (values : List Nat) : (deltas r values).length = values.length := by
  induction values generalizing r with
  | nil => rfl
  | cons v rest ih => rw [deltas, List.length_cons, List.length_cons, ih]

theorem coded_values_length (delta : Bool) (values : List Nat) :
    (coded_values delta values).length = values.length := by
  cases delta
  · rfl
  · exact deltas_length 0 values

/-- Reading back a vector built from numbers the coder can take: the build succeeds and
`__getitem__` returns the `i`-th value of the sequence for every `i < length`. -/
theorem enc_read_back (c : Coder) (delta : Bool) (sample_density : Nat) (values : List Nat)
    (hchain : delta = true → List.Chain (fun x y => x ≤ y) 0 values)
    (hdom : ∀ x ∈ coded_values delta values, c.domain x = true) :
    ∃ vec, add_enc_class.init c delta sample_density values = .ok vec ∧
      vec.length = values.length ∧
      ∀ i, (hi : i < values.length) → add_enc_class.__getitem__ vec i = .ok values[i] := by
  obtain ⟨stream', samples', hb, hbits, -, hnew⟩ :=
    SampledCodeVector.build_loop_spec c delta sample_density values ⟨[], 0⟩ [] 0 0
      (fun _ => rfl) hchain hdom (SampledCodeVector.sample_slots_zero sample_density)
  refine ⟨⟨c, delta, values.length, sample_density, stream', samples'⟩, ?_, rfl, fun i hi => ?_⟩
  · unfold add_enc_class.init SampledCodeVector.build
    rw [hb]
  · have ha : i / sample_density * sample_density ≤ i := Nat.div_mul_le_self _ _
    have hs := hnew (i / sample_density * sample_density)
      (by rw [Nat.zero_add]; exact Nat.mul_mod_left _ _) (by omega)
    rw [Nat.zero_add, SampledCodeVector.div_mul_div] at hs
    have hstream := hbits 0 (Nat.zero_le _)
    have hempty : BitStore.bits_from ⟨[], 0⟩ 0 = [] := rfl
    rw [hempty, List.nil_append] at hstream
    have hcursor : stream'.bits_from (0 + (stream_of c
        ((coded_values delta values).take (i / sample_density * sample_density))).length) =
        stream_of c ((coded_values delta values).drop (i / sample_density * sample_density)) ++
          [] := by
      rw [BitStore.bits_from_add, hstream, List.append_nil]
      exact stream_of_drop c _ _
    have hsteps := SampledCodeVector.decode_steps_spec c stream'
      (i - i / sample_density * sample_density + 1)
      ((coded_values delta values).drop (i / sample_density * sample_density))
      (0 + (stream_of c
        ((coded_values delta values).take (i / sample_density * sample_density))).length)
      (if delta then (if i / sample_density * sample_density = 0 then 0
        else values.getD (i / sample_density * sample_density - 1) 0) else 0) 0 []
      (fun y hy => hdom y (List.mem_of_mem_drop hy)) hcursor
      (by rw [List.length_drop, coded_values_length]; omega)
    unfold add_enc_class.__getitem__ SampledCodeVector.get
    rw [if_neg (show ¬ i ≥ values.length by omega), if_neg (show ¬ i ≥ values.length by omega)]
    show (match samples'[i / sample_density]? with
      | none => Except.error Error.OutOfRange
      | some s =>
          match SampledCodeVector.decode_steps c stream'
              (i - i / sample_density * sample_density + 1) s.bit_offset s.running_value 0 with
          | none => Except.error Error.UnsupportedValue
          | some (sum, last) => Except.ok (if delta = true then sum else last)) = _
    rw [hs]
    show (match SampledCodeVector.decode_steps c stream'
              (i - i / sample_density * sample_density + 1)
              (0 + (stream_of c
                ((coded_values delta values).take (i / sample_density * sample_density))).length)
              (if delta then (if i / sample_density * sample_density = 0 then 0
                else values.getD (i / sample_density * sample_density - 1) 0) else 0) 0 with
          | none => Except.error Error.UnsupportedValue
          | some (sum, last) => Except.ok (if delta = true then sum else last)) = _
    rw [hsteps]
    show Except.ok _ = _
    congr 1
    have hidx : i / sample_density * sample_density +
        (i - i / sample_density * sample_density) = i := by omega
    have hget : values.getD i 0 = values[i] := by
      rw [List.getD_eq_getElem?_getD, List.getElem?_eq_getElem hi]; rfl
    cases delta with
    | true =>
      have := deltas_telescope values 0 (i / sample_density * sample_density)
        (i - i / sample_density * sample_density) (hchain rfl) (by omega)
      rw [hidx] at this
      simp only [if_true]
      rw [← hget, ← this]
      rfl
    | false =>
      simp only [Bool.false_eq_true, if_false, Nat.add_sub_cancel]
      rw [if_neg (by omega), ← hget]
      show (List.drop _ values).getD _ 0 = _
      rw [List.getD_eq_getElem?_getD, List.getElem?_drop, hidx, List.getD_eq_getElem?_getD]

theorem chain_zero_iff (values : List Nat) :
    List.Chain (fun x y => x ≤ y) 0 values ↔ List.Chain' (fun x y => x ≤ y) values := by
  cases values with
  | nil => exact ⟨fun _ => List.chain'_nil, fun _ => List.Chain.nil⟩
  | cons v rest =>
    exact ⟨fun h => (List.chain_cons.mp h).2, fun h => List.Chain.cons (Nat.zero_le v) h⟩

/-- C3: every compressed vector (delta mode for `EncVector*`, direct mode for `VlcVector*`)
built from a finite input sequence returns the `i`-th value of the sequence from
`__getitem__` for every `i < length`, and its length is the sequence's.  A vector is built
exactly when every number handed to the coder lies in the coder's domain: the values
themselves in direct mode, so a sequence whose values lie in the domain is always built;
the differences `v[i] - v[i-1]` (`v[-1] = 0`) of a non-decreasing sequence in delta mode. -/
theorem enc_getitem_spec (c : Coder) (delta : Bool) (sample_density : Nat) (values : List Nat) :
    (∀ vec, add_enc_class.init c delta sample_density values = .ok vec →
      vec.length = values.length ∧
      ∀ i, (hi : i < values.length) → add_enc_class.__getitem__ vec i = .ok values[i]) ∧
    ((∃ vec, add_enc_class.init c delta sample_density values = .ok vec) ↔
      ((∀ x ∈ coded_values delta values, c.domain x = true) ∧
        (delta = true → List.Chain' (fun x y => x ≤ y) values))) ∧
    (delta = false → (∀ x ∈ values, c.domain x = true) →
      ∃ vec, add_enc_class.init c delta sample_density values = .ok vec) := by
  have hinv : ∀ vec, add_enc_class.init c delta sample_density values = .ok vec →
      (delta = true → List.Chain (fun x y => x ≤ y) 0 values) ∧
      (∀ x ∈ coded_values delta values, c.domain x = true) := by
    intro vec hv
    unfold add_enc_class.init SampledCodeVector.build at hv
    cases hb : SampledCodeVector.build_loop c delta sample_density ⟨[], 0⟩ [] 0 0 values with
    | error e => rw [hb] at hv; cases hv
    | ok result =>
      exact SampledCodeVector.build_loop_ok_inv c delta sample_density values _ _ _ _ result hb
  refine ⟨fun vec hv => ?_, ⟨fun ⟨vec, hv⟩ => ?_, fun ⟨hdom, hmono⟩ => ?_⟩, fun hd hdom => ?_⟩
  · obtain ⟨hchain, hdom⟩ := hinv vec hv
    obtain ⟨vec', hv', hlen, hget⟩ := enc_read_back c delta sample_density values hchain hdom
    rw [hv] at hv'
    cases hv'
    exact ⟨hlen, hget⟩
  · obtain ⟨hchain, hdom⟩ := hinv vec hv
    exact ⟨hdom, fun hd => (chain_zero_iff values).mp (hchain hd)⟩
  · obtain ⟨vec, hv, -, -⟩ := enc_read_back c delta sample_density values
      (fun hd => (chain_zero_iff values).mpr (hmono hd)) hdom
    exact ⟨vec, hv⟩
  · obtain ⟨vec, hv, -, -⟩ := enc_read_back c delta sample_density values
      (fun h => by rw [hd] at h; cases h)
      (fun x hx => hdom x (by rw [hd] at hx; exact hx))
    exact ⟨vec, hv⟩

/-- Witness for C3: the delta-mode EliasGamma vector built from `[1,2,3,4,5]` with
`sample_density = 2` has `get(3) == 4` and reads back every value. -/
theorem enc_getitem_spec_witness :
    (∃ vec, add_enc_class.init Coder.EliasGamma true 2 [1, 2, 3, 4, 5] = .ok vec ∧
      add_enc_class.__getitem__ vec 3 = .ok 4 ∧
      vec.length = [1, 2, 3, 4, 5].length ∧
      ∀ i, (hi : i < [1, 2, 3, 4, 5].length) →
        add_enc_class.__getitem__ vec i = .ok [1, 2, 3, 4, 5][i]) ∧
    (∃ vec, add_enc_class.init Coder.Comma4 false 3 [7, 0, 7, 2] = .ok vec) :=
  ⟨⟨⟨Coder.EliasGamma, true, 5, 2, ⟨[31], 5⟩, [⟨0, 0⟩, ⟨2, 2⟩, ⟨4, 4⟩]⟩, by decide, by decide,
    ((enc_getitem_spec Coder.EliasGamma true 2 [1, 2, 3, 4, 5]).1 _ (by decide)).1,
    ((enc_getitem_spec Coder.EliasGamma true 2 [1, 2, 3, 4, 5]).1 _ (by decide)).2⟩,
   (enc_getitem_spec Coder.Comma4 false 3 [7, 0, 7, 2]).2.2 rfl (by decide)⟩

/-- In delta mode the coder sees the differences: every value of `[1, 1]` lies in the
domain of EliasGamma, yet the second difference is 0, which EliasGamma cannot code, so the
build is refused with `UnsupportedValue`. -/
theorem enc_init_rejects_repeated_value :
    (∀ x ∈ [1, 1], Coder.EliasGamma.domain x = true) ∧
    add_enc_class.init Coder.EliasGamma true 2 [1, 1] = .error .UnsupportedValue := by
  exact ⟨by decide, by decide⟩

/-! ## The concrete scenarios of the specification -/

set_option maxRecDepth 100000 in
/-- The example vectors are what the constructors build. -/
theorem example_vectors_built :
    add_class_.init Kind.BitVector [1, 0, 1, 1, 0] = .ok example_bit_vector ∧
    add_class_.init Kind.BitVector [0, 0, 0, 0, 0] = .ok example_zero_bits ∧
    add_class_.init Kind.Int8Vector [5, 3, 9, 1, 9, 1] = .ok example_byte_vector := by
  decide

/-- Scenario `PackedVector::new(5, 3, 4)`: every `get(i)` is 3 and `bit_size() == 20`. -/
theorem scenario_new_vector :
    (∀ i, i < 5 → add_class_.__getitem__ example_int_vector i = .ok 3) ∧ example_int_vector.bit_size = 20 := by
  decide

/-- Scenario `BitVector([1,0,1,1,0])`: `next_bit(1) == 2` and `prev_bit(4) == 3`; on a vector
without set bits both scans return the sentinel `bit_size()`. -/
theorem scenario_bit_scans :
    add_class_.next_bit example_bit_vector 1 = .ok 2 ∧ add_class_.prev_bit example_bit_vector 4 = .ok 3 ∧
    add_class_.next_bit example_zero_bits 0 = .ok 5 ∧ add_class_.prev_bit example_zero_bits 4 = .ok 5 := by
  decide

/-- The example vectors satisfy the data-model invariant. -/
theorem example_vectors_wf :
    example_bit_vector.WF ∧ example_zero_bits.WF ∧ example_byte_vector.WF := by
  decide

end Pysdsl
